import Mathlib

set_option autoImplicit false

/- Shallow embedding of the afero-s3 filesystem layer (s3_fs.go, s3_file.go,
   s3_file_info.go).  Paths and S3 keys are lists of characters; object bodies
   are lists of bytes (each byte a Nat).  The S3 backend is modelled as an
   association list of key/body pairs held in listing order, with the
   deterministic semantics the spec gives for the collaborator interface:
   HEAD is key lookup, GET with a byte range returns the corresponding slice,
   the paginated LIST walks the rolled-up entry sequence, COPY and DELETE
   update the map.  Timestamps are modelled as 0 (the Unix epoch). -/

abbrev Str := List Char

abbrev Obj := List Nat

abbrev Store := List (Str × Obj)

/- Error values of the package (s3_fs.go lines 50-60) together with the
   foreign error values observed by the code: io.EOF, afero.ErrFileClosed,
   os.ErrNotExist, the S3 no-such-key copy failure, io.ErrClosedPipe,
   arbitrary upload failures (uploadFail), and the Go runtime panic raised by
   calling a method on a nil interface (nilPanic). -/
inductive GoErr where
  | notImplemented
  | notSupported
  | alreadyOpened
  | invalidSeek
  | fileClosed
  | eof
  | notExist
  | noSuchKey
  | closedPipe
  | uploadFail (code : Nat)
  | nilPanic
  deriving DecidableEq, Repr

/- FileInfo (s3_file_info.go): name, directory flag, size in bytes and
   modification time (an integer timestamp, 0 being the Unix epoch). -/
structure FileInfo where
  name : Str
  directory : Bool
  sizeInBytes : Int
  modTime : Int
  deriving DecidableEq, Repr

def NewFileInfo (name : Str) (directory : Bool) (sizeInBytes : Int) (modTime : Int) : FileInfo :=
  ⟨name, directory, sizeInBytes, modTime⟩

def FileInfo.isDir (fi : FileInfo) : Bool := fi.directory

def FileInfo.size (fi : FileInfo) : Int := fi.sizeInBytes

/- Go strings.HasPrefix(s, pre). -/
def goHasPre (s pre : Str) : Bool := pre.isPrefixOf s

/- Go strings.HasSuffix(s, suf). -/
def goHasSuf (s suf : Str) : Bool := suf.isSuffixOf s

/- Go strings.TrimPrefix(s, pre): drops pre once when it is present. -/
def trimPre (s pre : Str) : Str := if goHasPre s pre then s.drop pre.length else s

/- Pop step of the dot-dot case of Go path.Clean: the output buffer is kept
   reversed; characters are popped until the popped character is a slash or
   the buffer length reaches the dotdot bound. -/
def cleanPop : List Char → Nat → List Char
  | [], _ => []
  | c :: rest, dd =>
    if c = '/' then rest
    else if rest.length ≤ dd then rest
    else cleanPop rest dd

/- Main loop of Go path.Clean, a direct port of the index-based loop in the
   Go standard library; p is the unread input, rooted records a leading
   slash, dd is the dotdot bound and out is the reversed output buffer.
   The fuel argument bounds the recursion; every step consumes at least one
   input character so fuel = p.length always suffices. -/
def cleanAux : Nat → List Char → Bool → Nat → List Char → List Char
  | 0, _, _, _, out => out
  | _, [], _, _, out => out
  | fuel + 1, p, rooted, dd, out =>
    match p with
    | [] => out
    | '/' :: rest => cleanAux fuel rest rooted dd out
    | '.' :: [] => out
    | '.' :: '/' :: rest => cleanAux fuel rest rooted dd out
    | '.' :: '.' :: rest' =>
      match rest' with
      | [] =>
        if dd < out.length then cleanAux fuel [] rooted dd (cleanPop out dd)
        else if rooted then cleanAux fuel [] rooted dd out
        else
          let out' := '.' :: '.' :: (if out.length ≠ 0 then '/' :: out else out)
          cleanAux fuel [] rooted out'.length out'
      | '/' :: rest =>
        if dd < out.length then cleanAux fuel rest rooted dd (cleanPop out dd)
        else if rooted then cleanAux fuel rest rooted dd out
        else
          let out' := '.' :: '.' :: (if out.length ≠ 0 then '/' :: out else out)
          cleanAux fuel rest rooted out'.length out'
      | _ =>
        let elem := p.takeWhile (fun c => c ≠ '/')
        let rest := p.dropWhile (fun c => c ≠ '/')
        let sep : Bool := (rooted && out.length ≠ 1) || (!rooted && out.length ≠ 0)
        cleanAux fuel rest rooted dd (elem.reverse ++ (if sep then '/' :: out else out))
    | _ =>
      let elem := p.takeWhile (fun c => c ≠ '/')
      let rest := p.dropWhile (fun c => c ≠ '/')
      let sep : Bool := (rooted && out.length ≠ 1) || (!rooted && out.length ≠ 0)
      cleanAux fuel rest rooted dd (elem.reverse ++ (if sep then '/' :: out else out))

/- Go path.Clean (equal to filepath.Clean on unix separators). -/
def pathClean (p : Str) : Str :=
  if p = [] then ['.']
  else
    let rooted := p.head? = some '/'
    let body := if rooted then p.drop 1 else p
    let out0 : List Char := if rooted then ['/'] else []
    let dd0 : Nat := if rooted then 1 else 0
    let out := cleanAux body.length body rooted dd0 out0
    if out = [] then ['.'] else out.reverse

/- Go path.Join of two elements (equal to filepath.Join on unix): empty
   elements are skipped, the rest are joined with a slash and cleaned. -/
def pathJoin2 (a b : Str) : Str :=
  if a = [] && b = [] then []
  else if a = [] then pathClean b
  else if b = [] then pathClean a
  else pathClean (a ++ '/' :: b)

/- Go path.Base: empty input gives a dot, trailing slashes are stripped,
   then everything up to the final slash is removed; an all-slash input
   gives a single slash. -/
def pathBase (p : Str) : Str :=
  if p = [] then ['.']
  else
    let q := p.reverse.dropWhile (fun c => c = '/')
    if q = [] then ['/']
    else (q.takeWhile (fun c => c ≠ '/')).reverse

/- Fs.GetPath (s3_fs.go lines 65-73): a path already carrying the configured
   key prefix is returned unchanged, otherwise the cleaned prefix is joined
   in front and the result is cleaned. -/
def getPath (pre p : Str) : Str :=
  if goHasPre p pre then p
  else pathClean (pathJoin2 (pathClean pre) p)

/- Backend map operations.  lookupObj is HEAD/GET existence, putObj is PUT or
   the effect of COPY (insert in key order, replacing an equal key), delObj is
   DELETE (idempotent). -/
def lookupObj : Store → Str → Option Obj
  | [], _ => none
  | (k, o) :: rest, key => if k = key then some o else lookupObj rest key

def chLt (a b : Char) : Bool := a.toNat < b.toNat

def lexLt : Str → Str → Bool
  | [], [] => false
  | [], _ :: _ => true
  | _ :: _, [] => false
  | a :: as, b :: bs => if a = b then lexLt as bs else chLt a b

def putObj : Store → Str → Obj → Store
  | [], key, o => [(key, o)]
  | (k, v) :: rest, key, o =>
    if k = key then (key, o) :: rest
    else if lexLt key k then (key, o) :: (k, v) :: rest
    else (k, v) :: putObj rest key o

def delObj (s : Store) (key : Str) : Store := s.filter (fun kv => kv.1 ≠ key)

/- State of a File handle (s3_file.go): closed flag, whether a write stream
   is open, the logical read offset (streamReadOffset, an int64), the open
   range-stream if any (modelled by its remaining bytes), and the cached
   size from cachedInfo. -/
structure FState where
  closed : Bool
  streamWrite : Bool
  off : Int
  streamRead : Option (List Nat)
  cachedSize : Int
  deriving DecidableEq, Repr

/- File.seekRead (s3_file.go lines 654-671): recompute the offset from the
   whence constant (0 = SeekStart, 1 = SeekCurrent, 2 = SeekEnd), reject a
   negative result with ErrInvalidSeek, otherwise store it.  No stream is
   opened or closed. -/
def seekReadGo (st : FState) (offset : Int) (whence : Nat) : (Int × Option GoErr) × FState :=
  let startByte : Int :=
    match whence with
    | 0 => offset
    | 1 => st.off + offset
    | 2 => st.cachedSize - offset
    | _ => st.off
  if startByte < 0 then ((startByte, some GoErr.invalidSeek), st)
  else ((startByte, none), { st with off := startByte })

/- File.Seek (s3_file.go lines 641-652): a closed handle fails with
   afero.ErrFileClosed, a handle with an open write stream fails with
   ErrNotSupported, otherwise seekRead runs. -/
def fileSeek (st : FState) (offset : Int) (whence : Nat) : (Int × Option GoErr) × FState :=
  if st.closed then ((0, some GoErr.fileClosed), st)
  else if st.streamWrite then ((0, some GoErr.notSupported), st)
  else seekReadGo st offset whence

/- File.RangeReader (s3_file.go lines 747-768): GET of the byte range
   [from, from+amt-1], the upper end clamped to size-1; a start at or past
   the cached size yields io.EOF.  The backend GET returns the matching
   slice of the object body. -/
def rangeReader (content : List Nat) (size : Int) (from_ : Int) (amt : Int) : Except GoErr (List Nat) :=
  let target0 := from_ + amt - 1
  let target := if size ≤ target0 then size - 1 else target0
  if size ≤ from_ then Except.error GoErr.eof
  else Except.ok ((content.drop from_.toNat).take (target - from_ + 1).toNat)

/- One Read call on the open range-stream, modelled deterministically at the
   collaborator boundary: a nonempty stream yields its first min(b, length)
   bytes with no error, an empty stream signals io.EOF. -/
def streamStep : List Nat → Nat → (List Nat × Option GoErr) × List Nat
  | [], _ => (([], some GoErr.eof), [])
  | x :: xs, b => (((x :: xs).take b, none), (x :: xs).drop b)

/- File.Read (s3_file.go lines 591-621): with no open stream a RangeReader
   is opened at the current offset for b bytes (an error, io.EOF included,
   is returned directly with no bytes).  The stream is then read; a raw
   io.EOF closes the stream and is suppressed.  The offset advances by the
   bytes read, and once it has reached the cached size the call reports
   io.EOF together with those bytes. -/
def fileReadCore (st1 : FState) (s : List Nat) (b : Nat) :
    (List Nat × Option GoErr) × FState :=
  match streamStep s b with
  | ((bs, some GoErr.eof), _) =>
    let st2 := { st1 with streamRead := none, off := st1.off + (bs.length : Int) }
    if st2.cachedSize ≤ st2.off then ((bs, some GoErr.eof), st2)
    else ((bs, none), st2)
  | ((bs, e), rem') =>
    let st2 := { st1 with streamRead := some rem', off := st1.off + (bs.length : Int) }
    if st2.cachedSize ≤ st2.off then ((bs, some GoErr.eof), st2)
    else ((bs, e), st2)

def fileReadGo (content : List Nat) (st : FState) (b : Nat) : (List Nat × Option GoErr) × FState :=
  match st.streamRead with
  | none =>
    match rangeReader content st.cachedSize st.off b with
    | Except.error e => (([], some e), st)
    | Except.ok s => fileReadCore { st with streamRead := some s } s b
  | some s => fileReadCore st s b

/- Driver for the spec phrase "reading to the end": File.Read is called
   repeatedly with a b-byte buffer, collecting the returned bytes, until a
   call reports io.EOF (whose bytes are included).  The fuel argument bounds
   the number of calls; none is returned when it runs out, and any error
   other than io.EOF also yields none. -/
def readToEnd (content : List Nat) : Nat → FState → Nat → Option (List Nat)
  | 0, _, _ => none
  | fuel + 1, st, b =>
    match fileReadGo content st b with
    | ((bs, some GoErr.eof), _) => some bs
    | ((_, some _), _) => none
    | ((bs, none), st') => (readToEnd content fuel st' b).map (fun l => bs ++ l)

/- Write-side state: whether the upload pipe has been closed and the value
   of f.streamWriteErr (none models a nil error). -/
structure WState where
  pipeClosed : Bool
  writeErr : Option GoErr
  deriving DecidableEq, Repr

/- io.Pipe write end: writing to a closed pipe fails with
   io.ErrClosedPipe, otherwise all bytes are accepted. -/
def pipeWrite (st : WState) (p : List Nat) : Except GoErr Nat :=
  if st.pipeClosed then Except.error GoErr.closedPipe else Except.ok p.length

/- File.Write (s3_file.go lines 676-686): on any pipe error the call returns
   0 together with f.streamWriteErr instead of the pipe's own error. -/
def fileWriteGo (st : WState) (p : List Nat) : Nat × Option GoErr :=
  match pipeWrite st p with
  | Except.error _ => (0, st.writeErr)
  | Except.ok n => (n, none)

/- Failure path of the background upload task started by openWriteStream
   (s3_file.go lines 717-722): the task records the upload error in
   f.streamWriteErr and closes its end of the pipe. -/
def uploadTaskFail (_st : WState) (cause : GoErr) : WState :=
  { pipeClosed := true, writeErr := some cause }

/- Go os package open flags (linux values). -/
def oWRONLY : Nat := 1
def oRDWR : Nat := 2
def oCREATE : Nat := 64
def oAPPEND : Nat := 1024

/- Flag dispatch of Fs.OpenFile (s3_fs.go lines 137-176): O_RDWR and
   O_APPEND are rejected with ErrNotSupported, O_CREATE folds into write
   mode; the result records whether the open proceeds on the write path or
   on the read/directory path. -/
inductive OpenKind where
  | write
  | readOrDir
  deriving DecidableEq, Repr

def openFileFlagsGo (flag : Nat) : Except GoErr OpenKind :=
  if flag &&& oRDWR ≠ 0 then Except.error GoErr.notSupported
  else if flag &&& oAPPEND ≠ 0 then Except.error GoErr.notSupported
  else
    let flag := if flag &&& oCREATE ≠ 0 then flag ||| oWRONLY else flag
    if flag &&& oWRONLY ≠ 0 then Except.ok OpenKind.write
    else Except.ok OpenKind.readOrDir

/- File.Truncate (s3_file.go lines 539-544): always ErrNotImplemented. -/
def truncateGo (_st : FState) (_size : Int) : GoErr := GoErr.notImplemented

/- Fs.Chown (s3_fs.go lines 377-379): always ErrNotSupported. -/
def chownGo (_name : Str) (_uid _gid : Int) : GoErr := GoErr.notSupported

/- Fs.Chtimes (s3_fs.go lines 383-385): always ErrNotSupported. -/
def chtimesGo (_name : Str) (_atime _mtime : Int) : GoErr := GoErr.notSupported

/- A rolled-up listing entry: either a common prefix (a subdirectory) or an
   object key with its body. -/
inductive Entry where
  | com (p : Str)
  | obj (k : Str) (o : Obj)
  deriving DecidableEq, Repr

/- The full rolled-up entry sequence of a ListObjectsV2 enumeration over the
   store (whose list order models the backend's key order): keys carrying the
   requested prefix appear in order; with a "/" delimiter a key whose
   remainder contains a slash rolls up into a common prefix, consecutive
   equal common prefixes collapsing into one. -/
def entriesGo (pre : Str) (delim : Bool) : Store → Option Str → List Entry
  | [], _ => []
  | (k, o) :: rest, lastCom =>
    if goHasPre k pre then
      let rem := k.drop pre.length
      if delim && rem.contains '/' then
        let c := pre ++ rem.takeWhile (fun ch => ch ≠ '/') ++ ['/']
        if lastCom = some c then entriesGo pre delim rest lastCom
        else Entry.com c :: entriesGo pre delim rest (some c)
      else Entry.obj k o :: entriesGo pre delim rest lastCom
    else entriesGo pre delim rest lastCom

def entriesFor (store : Store) (pre : Str) (delim : Bool) : List Entry :=
  entriesGo pre delim store none

/- One ListObjectsV2 response: the common prefixes and contents of the page,
   KeyCount (number of keys returned with this request), IsTruncated, and
   NextContinuationToken (present only when truncated).  The continuation
   token is modelled as the position reached in the full entry sequence. -/
structure ListOut where
  coms : List Str
  objs : List (Str × Obj)
  keyCount : Nat
  isTruncated : Bool
  nextTok : Option Nat
  deriving DecidableEq, Repr

def entryCom : Entry → Option Str
  | Entry.com p => some p
  | Entry.obj _ _ => none

def entryObj : Entry → Option (Str × Obj)
  | Entry.com _ => none
  | Entry.obj k o => some (k, o)

def listV2 (store : Store) (pre : Str) (delim : Bool) (tok : Option Nat) (maxKeys : Nat) : ListOut :=
  let all := entriesFor store pre delim
  let t := tok.getD 0
  let page := (all.drop t).take maxKeys
  { coms := page.filterMap entryCom
    objs := page.filterMap entryObj
    keyCount := page.length
    isTruncated := decide (t + maxKeys < all.length)
    nextTok := if t + maxKeys < all.length then some (t + maxKeys) else none }

/- Pagination state of a File used as a directory handle:
   readdirContinuationToken and readdirNotTruncated (s3_file.go lines
   406-407). -/
structure DirState where
  tok : Option Nat
  exhausted : Bool
  deriving DecidableEq, Repr

def initDirState : DirState := ⟨none, false⟩

/- Conversion of one page entry to the os.FileInfo Readdir produces: a
   common prefix becomes a directory entry named by its base; a content key
   ending in a slash (the directory's own marker) is skipped; any other
   content key becomes a file entry with its size. -/
def comFi (p : Str) : FileInfo := NewFileInfo (pathBase ('/' :: p)) true 0 0

def objFi (ko : Str × Obj) : Option FileInfo :=
  if goHasSuf ko.1 ['/'] then none
  else some (NewFileInfo (pathBase ('/' :: ko.1)) false (ko.2.length : Int) 0)

def entryFi (e : Entry) : Option FileInfo :=
  match e with
  | Entry.com p => some (comFi p)
  | Entry.obj k o => objFi (k, o)

/- The prefix File.Readdir lists under: the handle name with one leading
   slash removed and, when nonempty and not already slash-terminated, a
   trailing slash appended (s3_file.go lines 445-452). -/
def readdirPre (fname : Str) : Str :=
  let nm := trimPre fname ['/']
  if nm ≠ [] ∧ ¬ goHasSuf nm ['/'] then nm ++ ['/'] else nm

/- File.Readdir for n > 0 (s3_file.go lines 438-481): an exhausted lister
   reports io.EOF at once; otherwise one paginated LIST runs with the stored
   continuation token, the new token is stored, the lister is marked
   exhausted when the response is not truncated, and the page's common
   prefixes followed by its non-marker contents are returned. -/
def readdirPage (store : Store) (fname : Str) (st : DirState) (n : Nat) :
    Except GoErr (List FileInfo) × DirState :=
  if st.exhausted then (Except.error GoErr.eof, st)
  else
    let out := listV2 store (readdirPre fname) true st.tok n
    let st' : DirState := ⟨out.nextTok, if !out.isTruncated then true else st.exhausted⟩
    (Except.ok (out.coms.map comFi ++ out.objs.filterMap objFi), st')

/- File.ReaddirAll (s3_file.go lines 484-498): Readdir(100) is called in a
   loop, concatenating pages, until io.EOF ends the enumeration; any other
   error is returned with no infos.  The fuel argument bounds the loop and
   none is returned when it runs out; store.length + 2 calls always
   suffice. -/
def readdirAllFuel (store : Store) (fname : Str) : DirState → Nat → Option (Except GoErr (List FileInfo) × DirState)
  | _, 0 => none
  | st, fuel + 1 =>
    match readdirPage store fname st 100 with
    | (Except.error e, st') =>
      if e = GoErr.eof then some (Except.ok [], st')
      else some (Except.error e, st')
    | (Except.ok fis, st') =>
      (readdirAllFuel store fname st' fuel).map (fun r =>
        match r with
        | (Except.ok fis', st'') => (Except.ok (fis ++ fis'), st'')
        | (Except.error e, st'') => (Except.error e, st''))

/- File.Readdir with an arbitrary n (s3_file.go lines 438-443): exhausted
   listers report io.EOF, n <= 0 delegates to ReaddirAll, n > 0 reads one
   page. -/
def readdirGo (store : Store) (fname : Str) (st : DirState) (n : Int) (fuel : Nat) :
    Option (Except GoErr (List FileInfo) × DirState) :=
  if st.exhausted then some (Except.error GoErr.eof, st)
  else if n ≤ 0 then readdirAllFuel store fname st fuel
  else some (readdirPage store fname st n.toNat)

/- Driver for the spec phrase "repeated Readdir(n) calls": pages are
   collected until a call reports io.EOF; fuel bounds the number of calls
   and any error other than io.EOF yields none. -/
def drainPages (store : Store) (fname : Str) (n : Nat) : DirState → Nat → Option (List FileInfo)
  | _, 0 => none
  | st, fuel + 1 =>
    match readdirPage store fname st n with
    | (Except.error GoErr.eof, _) => some []
    | (Except.error _, _) => none
    | (Except.ok fis, st') => (drainPages store fname n st' fuel).map (fun l => fis ++ l)

/- Fs.statDirectory (s3_fs.go lines 324-349): the name is normalized again,
   a LIST with maxKeys = 1 runs with the cleaned, slash-trimmed name as
   prefix, and a zero KeyCount yields os.ErrNotExist unless the name is
   empty or equals the configured prefix; otherwise directory metadata with
   the epoch timestamp is returned.  The second component counts backend
   requests. -/
def statDirFs (pre : Str) (store : Store) (inName : Str) : Except GoErr FileInfo × Nat :=
  let name := getPath pre inName
  let nameClean := pathClean name
  let out := listV2 store (trimPre nameClean ['/']) false none 1
  if out.keyCount = 0 ∧ name ≠ [] ∧ name ≠ pre then (Except.error GoErr.notExist, 1)
  else (Except.ok (NewFileInfo (pathBase name) true 0 0), 1)

/- Fs.Stat (s3_fs.go lines 286-322): the key "/" returns root directory
   metadata with no backend call; otherwise HEAD runs: a hit with a
   trailing-slash name returns the zero-valued FileInfo carrying only the
   name, a hit otherwise returns file metadata with the content length, and
   a miss (404) falls back to statDirectory.  The second component counts
   backend requests. -/
def statFs (pre : Str) (store : Store) (inName : Str) : Except GoErr FileInfo × Nat :=
  let name := getPath pre inName
  if name = ['/'] then (Except.ok (NewFileInfo name true 0 0), 0)
  else
    match lookupObj store name with
    | some o =>
      if goHasSuf name ['/'] then (Except.ok ⟨name, false, 0, 0⟩, 1)
      else (Except.ok (NewFileInfo (pathBase name) false (o.length : Int) 0), 1)
    | none =>
      let r := statDirFs pre store name
      (r.1, r.2 + 1)

/- The copy-then-delete tail of Fs.Rename (s3_fs.go lines 264-281): COPY of
   the old key fails with no-such-key when it is absent (and no delete
   runs); otherwise the body is copied to the new key and the old key is
   deleted. -/
def copyDelete (store : Store) (oldname newname : Str) : Store × Option GoErr :=
  match lookupObj store oldname with
  | none => (store, some GoErr.noSuchKey)
  | some o => (delObj (putObj store newname o) oldname, none)

/- The loop over directory children inside Fs.Rename (s3_fs.go lines
   251-256): each child is renamed by joining its name onto the original
   old and new paths, stopping at the first error.  The recursive rename is
   passed in as an argument. -/
def kidsFold (recurse : Store → Str → Str → Option (Store × Option GoErr))
    (inOld inNew : Str) : Store → List FileInfo → Option (Store × Option GoErr)
  | store, [] => some (store, none)
  | store, c :: cs =>
    match recurse store (pathJoin2 inOld c.name) (pathJoin2 inNew c.name) with
    | none => none
    | some (store', some e) => some (store', some e)
    | some (store', none) => kidsFold recurse inOld inNew store' cs

/- One unfolding of Fs.Rename (s3_fs.go lines 238-282) given the recursive
   call: equal normalized names are a no-op; Stat of the old name runs, a
   Stat error making the nil-interface IsDir call panic; a directory result
   lists all children, renames each, and returns with no further action when
   there was at least one child; otherwise (including an empty directory and
   the plain-file case) copy-then-delete of the undecorated old key runs. -/
def renameStep (pre : Str) (recurse : Store → Str → Str → Option (Store × Option GoErr))
    (store : Store) (inOld inNew : Str) : Option (Store × Option GoErr) :=
  let oldname := getPath pre inOld
  let newname := getPath pre inNew
  if oldname = newname then some (store, none)
  else
    match (statFs pre store oldname).1 with
    | Except.error _ => some (store, some GoErr.nilPanic)
    | Except.ok fi =>
      if fi.directory then
        match readdirAllFuel store oldname initDirState (store.length + 2) with
        | none => none
        | some (Except.error e, _) => some (store, some e)
        | some (Except.ok children, _) =>
          match kidsFold recurse inOld inNew store children with
          | none => none
          | some (store', some e) => some (store', some e)
          | some (store', none) =>
            if 0 < children.length then some (store', none)
            else some (copyDelete store' oldname newname)
      else some (copyDelete store oldname newname)

/- Fs.Rename with a recursion-depth bound; none is returned when the bound
   runs out. -/
def renameFuel (pre : Str) : Nat → Store → Str → Str → Option (Store × Option GoErr)
  | 0, _, _, _ => none
  | fuel + 1, store, inOld, inNew => renameStep pre (renameFuel pre fuel) store inOld inNew

/- The FileInfos produced from the page of n entries starting at position t
   of the full enumeration: common prefixes first, then non-marker
   contents, as File.Readdir assembles them. -/
def pageFis (store : Store) (fname : Str) (t n : Nat) : List FileInfo :=
  let page := ((entriesFor store (readdirPre fname) true).drop t).take n
  (page.filterMap entryCom).map comFi ++ (page.filterMap entryObj).filterMap objFi

deriving instance DecidableEq for Except

/- Theorems. -/

/-- Claim C6: for every write handle whose background upload task has already
failed, a subsequent Write call that receives a pipe error returns the upload
task's real failure cause as its error, not the generic write-on-closed-pipe
error produced by the pipe abstraction. -/
theorem write_reports_upload_cause (st : WState) (cause : GoErr) (p : List Nat) :
    fileWriteGo (uploadTaskFail st cause) p = (0, some cause) := rfl

/-- Claim C7: SeekStart sets the logical offset to the given value,
SeekCurrent adds the given value to the current offset, SeekEnd subtracts the
given value from the cached size; a resulting negative offset yields the
InvalidSeek error; Seek on a handle open for writing fails with NotSupported,
and Seek on a closed handle fails with the file-closed error. -/
theorem seek_semantics (st : FState) (o : Int) :
    (st.closed = true → ∀ w, fileSeek st o w = ((0, some GoErr.fileClosed), st)) ∧
    (st.closed = false → st.streamWrite = true →
      ∀ w, fileSeek st o w = ((0, some GoErr.notSupported), st)) ∧
    (st.closed = false → st.streamWrite = false → 0 ≤ o →
      fileSeek st o 0 = ((o, none), { st with off := o })) ∧
    (st.closed = false → st.streamWrite = false → 0 ≤ st.off + o →
      fileSeek st o 1 = ((st.off + o, none), { st with off := st.off + o })) ∧
    (st.closed = false → st.streamWrite = false → 0 ≤ st.cachedSize - o →
      fileSeek st o 2 = ((st.cachedSize - o, none), { st with off := st.cachedSize - o })) ∧
    (st.closed = false → st.streamWrite = false → o < 0 →
      fileSeek st o 0 = ((o, some GoErr.invalidSeek), st)) ∧
    (st.closed = false → st.streamWrite = false → st.off + o < 0 →
      fileSeek st o 1 = ((st.off + o, some GoErr.invalidSeek), st)) ∧
    (st.closed = false → st.streamWrite = false → st.cachedSize - o < 0 →
      fileSeek st o 2 = ((st.cachedSize - o, some GoErr.invalidSeek), st)) := by
  refine ⟨?_, ?_, ?_, ?_, ?_, ?_, ?_, ?_⟩
  · intro h w; simp [fileSeek, h]
  · intro h1 h2 w; simp [fileSeek, h1, h2]
  · intro h1 h2 h3; simp [fileSeek, seekReadGo, h1, h2]; omega
  · intro h1 h2 h3; simp [fileSeek, seekReadGo, h1, h2]; omega
  · intro h1 h2 h3; simp [fileSeek, seekReadGo, h1, h2]; omega
  · intro h1 h2 h3; simp [fileSeek, seekReadGo, h1, h2, h3]
  · intro h1 h2 h3; simp [fileSeek, seekReadGo, h1, h2, h3]
  · intro h1 h2 h3; simp [fileSeek, seekReadGo, h1, h2, h3]

/-- Witness for seek_semantics at a concrete read handle. -/
theorem seek_semantics_witness :
    fileSeek ⟨false, false, 3, none, 10⟩ 2 0 = ((2, none), ⟨false, false, 2, none, 10⟩) ∧
    fileSeek ⟨false, false, 3, none, 10⟩ (-7) 1 = ((-4, some GoErr.invalidSeek), ⟨false, false, 3, none, 10⟩) ∧
    fileSeek ⟨true, false, 3, none, 10⟩ 2 0 = ((0, some GoErr.fileClosed), ⟨true, false, 3, none, 10⟩) ∧
    fileSeek ⟨false, true, 3, none, 10⟩ 2 0 = ((0, some GoErr.notSupported), ⟨false, true, 3, none, 10⟩) :=
  ⟨(seek_semantics ⟨false, false, 3, none, 10⟩ 2).2.2.1 rfl rfl (by decide),
   (seek_semantics ⟨false, false, 3, none, 10⟩ (-7)).2.2.2.2.2.2.1 rfl rfl (by decide),
   (seek_semantics ⟨true, false, 3, none, 10⟩ 2).1 rfl 0,
   (seek_semantics ⟨false, true, 3, none, 10⟩ 2).2.1 rfl rfl 0⟩

/-- Claim C8 counterexample: File.Truncate does not fail with the
NotSupported error but with the distinct NotImplemented error, refuting the
claim that every operation in the listed set fails with NotSupported. -/
theorem truncate_uses_notImplemented :
    truncateGo ⟨false, false, 0, none, 0⟩ 0 = GoErr.notImplemented ∧
    GoErr.notImplemented ≠ GoErr.notSupported := by decide

/-- Claim C8 (amended): OpenFile with the append flag or the read-write flag,
Seek on an open write handle, Chown and Chtimes all fail with NotSupported
for every path, handle and argument value, while Truncate fails with the
distinct NotImplemented error. -/
theorem notSupported_taxonomy :
    (∀ flag : Nat, flag &&& oAPPEND ≠ 0 → openFileFlagsGo flag = Except.error GoErr.notSupported) ∧
    (∀ flag : Nat, flag &&& oRDWR ≠ 0 → openFileFlagsGo flag = Except.error GoErr.notSupported) ∧
    (∀ (st : FState) (o : Int) (w : Nat), st.closed = false → st.streamWrite = true →
      fileSeek st o w = ((0, some GoErr.notSupported), st)) ∧
    (∀ (st : FState) (sz : Int), truncateGo st sz = GoErr.notImplemented) ∧
    (∀ (nm : Str) (uid gid : Int), chownGo nm uid gid = GoErr.notSupported) ∧
    (∀ (nm : Str) (a m : Int), chtimesGo nm a m = GoErr.notSupported) := by
  refine ⟨?_, ?_, ?_, ?_, ?_, ?_⟩
  · intro flag h
    unfold openFileFlagsGo
    by_cases hrw : flag &&& oRDWR ≠ 0
    · simp [hrw]
    · simp [hrw, h]
  · intro flag h; simp [openFileFlagsGo, h]
  · intro st o w h1 h2; simp [fileSeek, h1, h2]
  · intro st sz; rfl
  · intro nm uid gid; rfl
  · intro nm a m; rfl

/-- Witness for notSupported_taxonomy at concrete flags and handles. -/
theorem notSupported_taxonomy_witness :
    openFileFlagsGo 1024 = Except.error GoErr.notSupported ∧
    openFileFlagsGo 2 = Except.error GoErr.notSupported ∧
    fileSeek ⟨false, true, 0, none, 5⟩ 1 0 = ((0, some GoErr.notSupported), ⟨false, true, 0, none, 5⟩) ∧
    truncateGo ⟨false, false, 0, none, 5⟩ 7 = GoErr.notImplemented ∧
    chownGo ['a'] 1 2 = GoErr.notSupported ∧
    chtimesGo ['a'] 1 2 = GoErr.notSupported :=
  ⟨notSupported_taxonomy.1 1024 (by decide),
   notSupported_taxonomy.2.1 2 (by decide),
   notSupported_taxonomy.2.2.1 ⟨false, true, 0, none, 5⟩ 1 0 rfl rfl,
   notSupported_taxonomy.2.2.2.1 ⟨false, false, 0, none, 5⟩ 7,
   notSupported_taxonomy.2.2.2.2.1 ['a'] 1 2,
   notSupported_taxonomy.2.2.2.2.2 ['a'] 1 2⟩

/-- Claim C9 counterexample: with configured prefix "/p" the input "/d/" ends
in a slash but GetPath produces "/p/d", which does not: the trailing slash is
lost by the lexical cleaning, not restored. -/
theorem getPath_drops_trailing_slash :
    goHasSuf ['/', 'd', '/'] ['/'] = true ∧
    getPath ['/', 'p'] ['/', 'd', '/'] = ['/', 'p', '/', 'd'] ∧
    goHasSuf (getPath ['/', 'p'] ['/', 'd', '/']) ['/'] = false := by decide

/-- Claim C9 (amended): GetPath preserves a trailing slash only when the
caller-supplied path already begins with the configured prefix, in which case
the path is returned unchanged (with an empty prefix this is every path);
otherwise the lexical cleaning removes the trailing slash. -/
theorem getPath_keeps_path_with_pre (pre p : Str) (h : goHasPre p pre = true) :
    getPath pre p = p ∧
    (goHasSuf p ['/'] = true → goHasSuf (getPath pre p) ['/'] = true) := by
  have h1 : getPath pre p = p := by simp [getPath, h]
  exact ⟨h1, fun hs => by rw [h1]; exact hs⟩

/-- Witness for getPath_keeps_path_with_pre on a slash-terminated path
carrying its prefix. -/
theorem getPath_keeps_path_with_pre_witness :
    getPath ['/', 'p'] ['/', 'p', '/', 'd', '/'] = ['/', 'p', '/', 'd', '/'] ∧
    goHasSuf (getPath ['/', 'p'] ['/', 'p', '/', 'd', '/']) ['/'] = true :=
  ⟨(getPath_keeps_path_with_pre ['/', 'p'] ['/', 'p', '/', 'd', '/'] (by decide)).1,
   (getPath_keeps_path_with_pre ['/', 'p'] ['/', 'p', '/', 'd', '/'] (by decide)).2 (by decide)⟩

/-- Claim C5 counterexample: with configured prefix "/p" and an empty bucket,
the HEAD of "/p" reports not-found and the fallback LIST returns zero
matches, yet Stat reports directory metadata instead of NotExist, because
statDirectory exempts the configured prefix. -/
theorem stat_zero_matches_without_notExist :
    lookupObj ([] : Store) (getPath ['/', 'p'] ['/', 'p']) = none ∧
    (listV2 ([] : Store) (trimPre (pathClean (getPath ['/', 'p'] ['/', 'p'])) ['/']) false none 1).keyCount = 0 ∧
    (statFs ['/', 'p'] [] ['/', 'p']).1 = Except.ok (NewFileInfo ['p'] true 0 0) := by decide

/-- Claim C5 (amended): when HEAD reports not-found, Stat falls back to a
LIST with maxKeys 1 whose prefix is the re-normalized key cleaned and
stripped of one leading slash: at least one match yields implicit directory
metadata, and zero matches yield NotExist unless the re-normalized key is
empty or equals the configured prefix. -/
theorem stat_head_miss_fallback (pre : Str) (store : Store) (inName : Str)
    (hroot : getPath pre inName ≠ ['/'])
    (hmiss : lookupObj store (getPath pre inName) = none) :
    (0 < (listV2 store (trimPre (pathClean (getPath pre (getPath pre inName))) ['/']) false none 1).keyCount →
      (statFs pre store inName).1 =
        Except.ok (NewFileInfo (pathBase (getPath pre (getPath pre inName))) true 0 0)) ∧
    ((listV2 store (trimPre (pathClean (getPath pre (getPath pre inName))) ['/']) false none 1).keyCount = 0 →
      getPath pre (getPath pre inName) ≠ [] → getPath pre (getPath pre inName) ≠ pre →
      (statFs pre store inName).1 = Except.error GoErr.notExist) := by
  have hstat : (statFs pre store inName).1 = (statDirFs pre store (getPath pre inName)).1 := by
    simp [statFs, hroot, hmiss]
  constructor
  · intro hk
    rw [hstat]
    simp only [statDirFs]
    rw [if_neg]
    intro hcond
    omega
  · intro hk h1 h2
    rw [hstat]
    simp only [statDirFs]
    rw [if_pos ⟨hk, h1, h2⟩]

/-- Witness for stat_head_miss_fallback: a store with one key under "d"
makes Stat of "d" report a directory, and an empty store makes Stat of "d"
report NotExist. -/
theorem stat_head_miss_fallback_witness :
    (statFs [] [(['d', '/', 'a'], [1])] ['d']).1 = Except.ok (NewFileInfo ['d'] true 0 0) ∧
    (statFs [] ([] : Store) ['d']).1 = Except.error GoErr.notExist :=
  ⟨(stat_head_miss_fallback [] [(['d', '/', 'a'], [1])] ['d'] (by decide) (by decide)).1 (by decide),
   (stat_head_miss_fallback [] ([] : Store) ['d'] (by decide) (by decide)).2 (by decide) (by decide) (by decide)⟩

/-- Claim C10 counterexample: with configured prefix "/p/" and an empty
bucket, Stat of the exact root path "/" does not succeed at all: the key
normalizes to "/p", HEAD misses, the re-normalized fallback name "/p/p"
differs from the prefix, and Stat reports NotExist. -/
theorem stat_root_with_slash_pre_fails :
    (statFs ['/', 'p', '/'] [] ['/']).1 = Except.error GoErr.notExist := by decide

/-- Claim C10 (amended): whenever the normalized key of "/" is "/" itself
(with an empty prefix in particular), Stat of "/" returns directory metadata
with size 0 and the epoch modification time while issuing zero backend
requests, even on an empty bucket; and the fallback treats a re-normalized
name that is empty or equals the configured prefix as an existing directory
even when the LIST finds zero keys. -/
theorem stat_root_and_fallback_exemptions (pre : Str) (store : Store) :
    (getPath pre ['/'] = ['/'] → statFs pre store ['/'] = (Except.ok (NewFileInfo ['/'] true 0 0), 0)) ∧
    (∀ inName, lookupObj store (getPath pre inName) = none → getPath pre inName ≠ ['/'] →
      (getPath pre (getPath pre inName) = [] ∨ getPath pre (getPath pre inName) = pre) →
      (statFs pre store inName).1 =
        Except.ok (NewFileInfo (pathBase (getPath pre (getPath pre inName))) true 0 0)) := by
  constructor
  · intro h
    simp [statFs, h]
  · intro inName hmiss hroot hexempt
    have hstat : (statFs pre store inName).1 = (statDirFs pre store (getPath pre inName)).1 := by
      simp [statFs, hroot, hmiss]
    rw [hstat]
    simp only [statDirFs]
    rw [if_neg]
    intro hcond
    rcases hexempt with h | h
    · exact hcond.2.1 h
    · exact hcond.2.2 h

/-- Witness for stat_root_and_fallback_exemptions with an empty prefix and
empty bucket: Stat of "/" succeeds with no backend request, and Stat of the
empty name is treated as an existing directory. -/
theorem stat_root_and_fallback_exemptions_witness :
    statFs [] ([] : Store) ['/'] = (Except.ok (NewFileInfo ['/'] true 0 0), 0) ∧
    (statFs [] ([] : Store) []).1 = Except.ok (NewFileInfo (pathBase ([] : Str)) true 0 0) :=
  ⟨(stat_root_and_fallback_exemptions [] []).1 (by decide),
   (stat_root_and_fallback_exemptions [] []).2 [] (by decide) (by decide) (Or.inl (by decide))⟩

/-- Claim C3: when the underlying range-stream signals end-of-range, Read
closes the stream and suppresses the raw end-of-stream signal unless the
logical offset has reached the cached total size; end-of-file is reported
exactly when the advanced offset has reached the cached size, together with
the (possibly nonzero) count of bytes read in that same call, and Read never
silently returns zero bytes with no error at end-of-file. -/
theorem read_eof_semantics (content : List Nat) (st : FState) (b : Nat) :
    (st.streamRead = some [] →
      (fileReadGo content st b).2.streamRead = none ∧
      (fileReadGo content st b).1.1 = [] ∧
      (fileReadGo content st b).2.off = st.off ∧
      (st.off < st.cachedSize → (fileReadGo content st b).1.2 = none) ∧
      (st.cachedSize ≤ st.off → (fileReadGo content st b).1.2 = some GoErr.eof)) ∧
    ((fileReadGo content st b).1.2 = some GoErr.eof ↔ st.cachedSize ≤ (fileReadGo content st b).2.off) ∧
    (∀ x xs, st.streamRead = some (x :: xs) →
      st.cachedSize ≤ st.off + (((x :: xs).take b).length : Int) →
      (fileReadGo content st b).1 = ((x :: xs).take b, some GoErr.eof)) ∧
    ¬ ((fileReadGo content st b).1.1 = [] ∧ (fileReadGo content st b).1.2 = none ∧
       st.cachedSize ≤ (fileReadGo content st b).2.off) := by
  obtain ⟨cl, sw, off, sr, cs⟩ := st
  match sr with
  | some [] =>
    simp only [fileReadGo, fileReadCore, streamStep]
    split_ifs with h <;> simp_all
  | some (x :: xs) =>
    simp only [fileReadGo, fileReadCore, streamStep]
    split_ifs with h <;> simp_all <;> omega
  | none =>
    by_cases h0 : cs ≤ off
    · simp only [fileReadGo, rangeReader]
      rw [if_pos h0]
      simp_all
    · simp only [fileReadGo, rangeReader]
      rw [if_neg h0]
      generalize (List.take ((if cs ≤ off + (b : Int) - 1 then cs - 1 else off + (b : Int) - 1) - off + 1).toNat (List.drop off.toNat content)) = s
      match s with
      | [] =>
        simp only [fileReadCore, streamStep]
        split_ifs with h <;> simp_all
      | y :: ys =>
        simp only [fileReadCore, streamStep]
        split_ifs with h <;> simp_all <;> omega

/-- Witness for read_eof_semantics: a drained open stream is closed with the
raw signal suppressed below the cached size, and reports end-of-file once the
offset equals the cached size. -/
theorem read_eof_semantics_witness :
    (fileReadGo [1, 2] ⟨false, false, 2, some [], 2⟩ 1).1.2 = some GoErr.eof ∧
    (fileReadGo [1, 2] ⟨false, false, 0, some [], 2⟩ 1).1.2 = none ∧
    (fileReadGo [1, 2] ⟨false, false, 0, some [], 2⟩ 1).2.streamRead = none :=
  ⟨((read_eof_semantics [1, 2] ⟨false, false, 2, some [], 2⟩ 1).1 rfl).2.2.2.2 (by decide),
   ((read_eof_semantics [1, 2] ⟨false, false, 0, some [], 2⟩ 1).1 rfl).2.2.2.1 (by decide),
   ((read_eof_semantics [1, 2] ⟨false, false, 0, some [], 2⟩ 1).1 rfl).1⟩

theorem readToEnd_drop (content : List Nat) (b : Nat) (hb : 1 ≤ b) :
    ∀ (fuel : Nat) (cl sw : Bool) (off : Int) (sr : Option (List Nat)),
    0 ≤ off → off ≤ (content.length : Int) →
    (sr = none ∨ sr = some []) →
    2 * (content.length - off.toNat) + (if sr = none then 1 else 2) ≤ fuel →
    readToEnd content fuel ⟨cl, sw, off, sr, (content.length : Int)⟩ b =
      some (content.drop off.toNat) := by
  intro fuel
  induction fuel using Nat.strong_induction_on with
  | _ fuel IH =>
    intro cl sw off sr h0 h1 hsr hfuel
    match fuel, hfuel with
    | 0, hfuel =>
      exfalso
      rcases hsr with rfl | rfl
      · rw [if_pos rfl] at hfuel; omega
      · rw [if_neg (by simp)] at hfuel; omega
    | f + 1, hfuel =>
      rcases hsr with rfl | rfl
      · -- no open stream
        by_cases hoff : (content.length : Int) ≤ off
        · -- at end of file: the range open reports io.EOF at once
          have hoe : off = (content.length : Int) := le_antisymm h1 hoff
          simp only [readToEnd, fileReadGo, rangeReader]
          rw [if_pos hoff]
          simp [hoe]
        · push_neg at hoff
          simp only [readToEnd, fileReadGo, rangeReader]
          rw [if_neg (by omega)]
          set dnat := off.toNat with hdnat
          have hdo : (dnat : Int) = off := Int.toNat_of_nonneg h0
          have hdl : dnat < content.length := by omega
          by_cases htr : (content.length : Int) ≤ off + (b : Int) - 1
          · -- the range is clamped at size - 1: the rest of the file in one go
            rw [if_pos htr]
            have hc : ((content.length : Int) - 1 - off + 1).toNat = content.length - dnat := by omega
            rw [hc]
            have hslen : (List.take (content.length - dnat) (List.drop dnat content)).length
                = content.length - dnat := by
              simp [List.length_take, List.length_drop]
            have hfull : List.take (content.length - dnat) (List.drop dnat content)
                = List.drop dnat content := by
              apply List.take_of_length_le
              simp [List.length_drop]
            match hs : List.take (content.length - dnat) (List.drop dnat content) with
            | [] =>
              exfalso
              have := congrArg List.length hs
              simp [hslen] at this
              omega
            | y :: ys =>
              simp only [fileReadCore, streamStep]
              have hys : (y :: ys).length = content.length - dnat := by rw [← hs, hslen]
              have htk : List.take b (y :: ys) = y :: ys := by
                apply List.take_of_length_le
                omega
              rw [htk]
              rw [if_pos (by rw [hys]; push_cast; omega)]
              rw [← hs, hfull]
          · -- the range covers b bytes strictly inside the file
            rw [if_neg htr]
            push_neg at htr
            have hc : (off + (b : Int) - 1 - off + 1).toNat = b := by omega
            rw [hc]
            have hslen : (List.take b (List.drop dnat content)).length = b := by
              simp only [List.length_take, List.length_drop]
              omega
            match hs : List.take b (List.drop dnat content) with
            | [] =>
              exfalso
              have := congrArg List.length hs
              simp [hslen] at this
              omega
            | y :: ys =>
              simp only [fileReadCore, streamStep]
              have hys : (y :: ys).length = b := by rw [← hs, hslen]
              have htk : List.take b (y :: ys) = y :: ys := by
                apply List.take_of_length_le
                omega
              have hdr : List.drop b (y :: ys) = [] := by
                apply List.drop_eq_nil_of_le
                omega
              rw [htk, hdr]
              by_cases hend : (content.length : Int) ≤ off + ((y :: ys).length : Int)
              · rw [if_pos hend]
                have hbe : off + (b : Int) = (content.length : Int) := by
                  rw [hys] at hend; push_cast at hend; omega
                simp only [Option.some.injEq]
                rw [← hs]
                have : b = content.length - dnat := by omega
                rw [this]
                exact List.take_of_length_le (by simp [List.length_drop])
              · rw [if_neg hend]
                rw [hys] at hend
                push_neg at hend
                rw [if_pos rfl] at hfuel
                have hrec := IH f (by omega) cl sw (off + ((y :: ys).length : Int)) (some [])
                  (by positivity)
                  (by rw [hys]; push_cast; omega)
                  (Or.inr rfl)
                  (by rw [hys]; rw [if_neg (by simp)]; push_cast at hend ⊢; omega)
                show Option.map (fun l => (y :: ys) ++ l)
                  (readToEnd content f
                    ⟨cl, sw, off + ((y :: ys).length : Int), some [], (content.length : Int)⟩ b)
                  = some (List.drop dnat content)
                rw [hrec]
                simp only [Option.map_some', Option.some.injEq]
                rw [hys]
                have hoff2 : (off + (b : Int)).toNat = dnat + b := by omega
                rw [hoff2]
                rw [← List.drop_drop, ← hs]
                exact List.take_append_drop b (List.drop dnat content)
      · -- a drained open stream: the call closes it reading zero bytes
        simp only [readToEnd, fileReadGo, fileReadCore, streamStep]
        by_cases hend : (content.length : Int) ≤ off + (([] : List Nat).length : Int)
        · rw [if_pos hend]
          simp at hend
          have : off = (content.length : Int) := le_antisymm h1 hend
          simp [this]
        · rw [if_neg hend]
          rw [if_neg (by simp)] at hfuel
          have hrec := IH f (by omega) cl sw off none h0 h1 (Or.inl rfl)
            (by rw [if_pos rfl]; omega)
          show Option.map (fun l => ([] : List Nat) ++ l)
            (readToEnd content f
              ⟨cl, sw, off + (([] : List Nat).length : Int), none, (content.length : Int)⟩ b)
            = some (List.drop off.toNat content)
          simp only [List.length_nil, Nat.cast_zero, add_zero]
          rw [hrec]
          simp


/-- Claim C1: for every object whose size is cached on the handle and every
valid offset 0 <= k <= size, Seek(k, SeekStart) on a read handle followed by
reading to the end returns exactly the object's bytes with the first k
dropped, whether the range-stream at the moment of the Seek is closed or a
(necessarily drained) open one. -/
theorem seek_then_read_to_end (content : List Nat) (k : Int) (b : Nat) (st : FState)
    (hclosed : st.closed = false) (hw : st.streamWrite = false)
    (hsize : st.cachedSize = (content.length : Int))
    (hstream : st.streamRead = none ∨ st.streamRead = some [])
    (hk0 : 0 ≤ k) (hk1 : k ≤ (content.length : Int)) (hb : 1 ≤ b) :
    (fileSeek st k 0).1 = (k, none) ∧
    readToEnd content (2 * content.length + 2) (fileSeek st k 0).2 b =
      some (content.drop k.toNat) := by
  have hseek : fileSeek st k 0 = ((k, none), { st with off := k }) := by
    simp only [fileSeek, seekReadGo, hclosed, hw]
    simp
    omega
  rw [hseek]
  refine ⟨rfl, ?_⟩
  obtain ⟨cl, sw, off, sr, cs⟩ := st
  simp only at hsize hstream
  subst hsize
  exact readToEnd_drop content b hb _ cl sw k sr hk0 hk1 hstream
    (by rcases hstream with rfl | rfl
        · rw [if_pos rfl]; omega
        · rw [if_neg (by simp)]; omega)

/-- Witness for seek_then_read_to_end: seeking to 2 in a 5-byte object with a
drained open stream and reading to the end in 2-byte chunks yields the last
3 bytes. -/
theorem seek_then_read_to_end_witness :
    (fileSeek ⟨false, false, 4, some [], 5⟩ 2 0).1 = (2, none) ∧
    readToEnd [10, 11, 12, 13, 14] 12 (fileSeek ⟨false, false, 4, some [], 5⟩ 2 0).2 2 =
      some [12, 13, 14] :=
  seek_then_read_to_end [10, 11, 12, 13, 14] 2 2 ⟨false, false, 4, some [], 5⟩
    rfl rfl (by decide) (Or.inr rfl) (by decide) (by decide) (by decide)

theorem page_fis_perm (page : List Entry) :
    ((page.filterMap entryCom).map comFi ++ (page.filterMap entryObj).filterMap objFi).Perm
      (page.filterMap entryFi) := by
  induction page with
  | nil => simp
  | cons e rest ih =>
    match e with
    | Entry.com p =>
      simp only [List.filterMap_cons, entryCom, entryObj, entryFi, List.map_cons]
      exact ih.cons (comFi p)
    | Entry.obj k o =>
      cases hobj : objFi (k, o) with
      | none =>
        simpa [List.filterMap_cons, entryCom, entryObj, entryFi, hobj] using ih
      | some fi =>
        simp only [List.filterMap_cons, entryCom, entryObj, entryFi, hobj]
        exact List.perm_middle.trans (ih.cons fi)

theorem readdirPage_exhausted (store : Store) (fname : Str) (st : DirState) (n : Nat)
    (h : st.exhausted = true) :
    readdirPage store fname st n = (Except.error GoErr.eof, st) := by
  simp [readdirPage, h]

theorem readdirPage_trunc (store : Store) (fname : Str) (tok : Option Nat) (n : Nat)
    (h : tok.getD 0 + n < (entriesFor store (readdirPre fname) true).length) :
    readdirPage store fname ⟨tok, false⟩ n =
      (Except.ok (pageFis store fname (tok.getD 0) n), ⟨some (tok.getD 0 + n), false⟩) := by
  simp [readdirPage, listV2, pageFis, h]

theorem readdirPage_last (store : Store) (fname : Str) (tok : Option Nat) (n : Nat)
    (h : ¬ tok.getD 0 + n < (entriesFor store (readdirPre fname) true).length) :
    readdirPage store fname ⟨tok, false⟩ n =
      (Except.ok (pageFis store fname (tok.getD 0) n), ⟨none, true⟩) := by
  simp [readdirPage, listV2, pageFis, h]

theorem drain_from (store : Store) (fname : Str) (n : Nat) (hn : 1 ≤ n) :
    ∀ (fuel : Nat) (tok : Option Nat),
    (entriesFor store (readdirPre fname) true).length - tok.getD 0 + 2 ≤ fuel →
    ∃ l, drainPages store fname n ⟨tok, false⟩ fuel = some l ∧
      l.Perm (((entriesFor store (readdirPre fname) true).drop (tok.getD 0)).filterMap entryFi) := by
  intro fuel
  induction fuel using Nat.strong_induction_on with
  | _ fuel IH =>
    intro tok hfuel
    set all := entriesFor store (readdirPre fname) true with hall
    match fuel, hfuel with
    | f + 1, hfuel =>
      set t := tok.getD 0 with ht
      have hperm := page_fis_perm ((all.drop t).take n)
      by_cases htr : t + n < all.length
      · obtain ⟨l', hl', hp'⟩ := IH f (by omega) (some (t + n)) (by simp; omega)
        simp only [Option.getD_some] at hl' hp'
        refine ⟨pageFis store fname t n ++ l', ?_, ?_⟩
        · simp only [drainPages, readdirPage_trunc store fname tok n (by rw [← hall, ← ht]; exact htr), ← ht]
          rw [hl']
          rfl
        · refine ?_
          simp only [pageFis, ← hall]
          refine (hperm.append hp').trans ?_
          rw [← List.filterMap_append]
          rw [show List.drop (t + n) all = List.drop n (List.drop t all) from by rw [List.drop_drop]]
          rw [List.take_append_drop]
      · refine ⟨pageFis store fname t n, ?_, ?_⟩
        · simp only [drainPages, readdirPage_last store fname tok n (by rw [← hall, ← ht]; exact htr), ← ht]
          match f, (by omega : 1 ≤ f) with
          | fNext + 1, _ =>
            simp only [drainPages, readdirPage_exhausted store fname ⟨none, true⟩ n rfl]
            simp
        · simp only [pageFis, ← hall]
          refine hperm.trans ?_
          rw [List.take_of_length_le]
          simp only [List.length_drop]
          omega

theorem readdirAll_from (store : Store) (fname : Str) :
    ∀ (fuel : Nat) (tok : Option Nat),
    (entriesFor store (readdirPre fname) true).length - tok.getD 0 + 2 ≤ fuel →
    ∃ l st', readdirAllFuel store fname ⟨tok, false⟩ fuel = some (Except.ok l, st') ∧
      l.Perm (((entriesFor store (readdirPre fname) true).drop (tok.getD 0)).filterMap entryFi) := by
  intro fuel
  induction fuel using Nat.strong_induction_on with
  | _ fuel IH =>
    intro tok hfuel
    set all := entriesFor store (readdirPre fname) true with hall
    match fuel, hfuel with
    | f + 1, hfuel =>
      set t := tok.getD 0 with ht
      have hperm := page_fis_perm ((all.drop t).take 100)
      by_cases htr : t + 100 < all.length
      · obtain ⟨l', st', hl', hp'⟩ := IH f (by omega) (some (t + 100)) (by simp; omega)
        simp only [Option.getD_some] at hl' hp'
        refine ⟨pageFis store fname t 100 ++ l', st', ?_, ?_⟩
        · simp only [readdirAllFuel,
            readdirPage_trunc store fname tok 100 (by rw [← hall, ← ht]; exact htr), ← ht]
          rw [hl']
          rfl
        · simp only [pageFis, ← hall]
          refine (hperm.append hp').trans ?_
          rw [← List.filterMap_append]
          rw [show List.drop (t + 100) all = List.drop 100 (List.drop t all) from by
            rw [List.drop_drop]]
          rw [List.take_append_drop]
      · refine ⟨pageFis store fname t 100, ⟨none, true⟩, ?_, ?_⟩
        · simp only [readdirAllFuel,
            readdirPage_last store fname tok 100 (by rw [← hall, ← ht]; exact htr), ← ht]
          match f, (by omega : 1 ≤ f) with
          | fNext + 1, _ =>
            simp only [readdirAllFuel, readdirPage_exhausted store fname ⟨none, true⟩ 100 rfl]
            simp
        · simp only [pageFis, ← hall]
          refine hperm.trans ?_
          rw [List.take_of_length_le]
          simp only [List.length_drop]
          omega

/-- Claim C4: repeated Readdir(n) calls with n greater than 0 partition the
directory's full entry set with no omission and no duplication and terminate
in end-of-sequence; Readdir with n at most 0 returns the identical total set
in one call; once the backend reports no further truncation the lister is
marked exhausted, and it is the next call, not the one that consumed the
last page, that signals end-of-sequence. -/
theorem readdir_pagination (store : Store) (fname : Str) (n : Nat) (hn : 1 ≤ n) :
    (∃ l lAll stA,
      drainPages store fname n initDirState
        ((entriesFor store (readdirPre fname) true).length + 2) = some l ∧
      readdirGo store fname initDirState 0
        ((entriesFor store (readdirPre fname) true).length + 2) = some (Except.ok lAll, stA) ∧
      l.Perm ((entriesFor store (readdirPre fname) true).filterMap entryFi) ∧
      lAll.Perm ((entriesFor store (readdirPre fname) true).filterMap entryFi)) ∧
    (∀ st : DirState, st.exhausted = true → ∀ (m : Int) (fu : Nat),
      readdirGo store fname st m fu = some (Except.error GoErr.eof, st)) ∧
    (∀ st : DirState, st.exhausted = false →
      ∃ fis st', readdirPage store fname st n = (Except.ok fis, st') ∧
        st'.exhausted = !(listV2 store (readdirPre fname) true st.tok n).isTruncated) := by
  refine ⟨?_, ?_, ?_⟩
  · obtain ⟨l, hl, hp⟩ := drain_from store fname n hn
      ((entriesFor store (readdirPre fname) true).length + 2) none (by simp)
    obtain ⟨lAll, stA, hlA, hpA⟩ := readdirAll_from store fname
      ((entriesFor store (readdirPre fname) true).length + 2) none (by simp)
    rw [Option.getD_none, List.drop_zero] at hp hpA
    refine ⟨l, lAll, stA, hl, ?_, hp, hpA⟩
    simp only [readdirGo, initDirState]
    rw [if_neg (by simp)]
    rw [if_pos (by omega)]
    exact hlA
  · intro st hex m fu
    simp [readdirGo, hex]
  · intro st hex
    obtain ⟨tk, ex⟩ := st
    simp only at hex
    subst hex
    have hpage : readdirPage store fname ⟨tk, false⟩ n =
        (Except.ok ((listV2 store (readdirPre fname) true tk n).coms.map comFi ++
          (listV2 store (readdirPre fname) true tk n).objs.filterMap objFi),
         ⟨(listV2 store (readdirPre fname) true tk n).nextTok,
          !(listV2 store (readdirPre fname) true tk n).isTruncated⟩) := by
      cases h : (listV2 store (readdirPre fname) true tk n).isTruncated <;>
        simp [readdirPage, h]
    exact ⟨_, _, hpage, rfl⟩

/-- Witness for readdir_pagination on a four-key bucket listed at the root
in pages of two entries. -/
theorem readdir_pagination_witness :
    ((∃ l lAll stA,
      drainPages [(['a'], [1, 2]), (['b', '/'], []), (['b', '/', 'x'], [3]), (['c'], [4])] ['/'] 2
        initDirState
        ((entriesFor [(['a'], [1, 2]), (['b', '/'], []), (['b', '/', 'x'], [3]), (['c'], [4])]
          (readdirPre ['/']) true).length + 2) = some l ∧
      readdirGo [(['a'], [1, 2]), (['b', '/'], []), (['b', '/', 'x'], [3]), (['c'], [4])] ['/']
        initDirState 0
        ((entriesFor [(['a'], [1, 2]), (['b', '/'], []), (['b', '/', 'x'], [3]), (['c'], [4])]
          (readdirPre ['/']) true).length + 2) = some (Except.ok lAll, stA) ∧
      l.Perm ((entriesFor [(['a'], [1, 2]), (['b', '/'], []), (['b', '/', 'x'], [3]), (['c'], [4])]
        (readdirPre ['/']) true).filterMap entryFi) ∧
      lAll.Perm ((entriesFor [(['a'], [1, 2]), (['b', '/'], []), (['b', '/', 'x'], [3]), (['c'], [4])]
        (readdirPre ['/']) true).filterMap entryFi)) ∧
    (∀ st : DirState, st.exhausted = true → ∀ (m : Int) (fu : Nat),
      readdirGo [(['a'], [1, 2]), (['b', '/'], []), (['b', '/', 'x'], [3]), (['c'], [4])] ['/']
        st m fu = some (Except.error GoErr.eof, st)) ∧
    (∀ st : DirState, st.exhausted = false →
      ∃ fis st', readdirPage [(['a'], [1, 2]), (['b', '/'], []), (['b', '/', 'x'], [3]), (['c'], [4])] ['/']
          st 2 = (Except.ok fis, st') ∧
        st'.exhausted =
          !(listV2 [(['a'], [1, 2]), (['b', '/'], []), (['b', '/', 'x'], [3]), (['c'], [4])]
            (readdirPre ['/']) true st.tok 2).isTruncated)) ∧
    drainPages [(['a'], [1, 2]), (['b', '/'], []), (['b', '/', 'x'], [3]), (['c'], [4])] ['/'] 2
      initDirState 5 =
      some [⟨['b'], true, 0, 0⟩, ⟨['a'], false, 2, 0⟩, ⟨['c'], false, 1, 0⟩] :=
  ⟨readdir_pagination [(['a'], [1, 2]), (['b', '/'], []), (['b', '/', 'x'], [3]), (['c'], [4])] ['/'] 2
    (by decide), by decide⟩

theorem getPath_nil (p : Str) : getPath [] p = p := by
  simp [getPath, goHasPre, List.isPrefixOf]

theorem lookup_putObj_self (s : Store) (k : Str) (o : Obj) :
    lookupObj (putObj s k o) k = some o := by
  induction s with
  | nil => simp [putObj, lookupObj]
  | cons kv rest ih =>
    obtain ⟨k', v⟩ := kv
    by_cases h1 : k' = k
    · simp [putObj, h1, lookupObj]
    · by_cases h2 : lexLt k k'
      · simp [putObj, h1, h2, lookupObj]
      · have h1b : (k' = k) = False := by simp [h1]
        simp [putObj, h1, h2, lookupObj, h1b, ih]

theorem lookup_putObj_ne (s : Store) (k k' : Str) (o : Obj) (h : k' ≠ k) :
    lookupObj (putObj s k o) k' = lookupObj s k' := by
  have hks : k ≠ k' := Ne.symm h
  induction s with
  | nil => simp [putObj, lookupObj, hks]
  | cons kv rest ih =>
    obtain ⟨k0, v⟩ := kv
    by_cases h1 : k0 = k
    · subst h1
      simp [putObj, lookupObj, hks]
    · by_cases h3 : lexLt k k0
      · simp [putObj, h1, h3, lookupObj, hks]
      · simp [putObj, h1, h3, lookupObj, ih]

theorem lookup_delObj_self (s : Store) (k : Str) : lookupObj (delObj s k) k = none := by
  induction s with
  | nil => rfl
  | cons kv rest ih =>
    obtain ⟨k0, v⟩ := kv
    by_cases h1 : k0 = k
    · subst h1
      show lookupObj (List.filter _ ((k0, v) :: rest)) k0 = none
      rw [List.filter_cons_of_neg (by simp)]
      exact ih
    · show lookupObj (List.filter _ ((k0, v) :: rest)) k = none
      rw [List.filter_cons_of_pos (by simp [h1])]
      show (if k0 = k then some v else lookupObj (delObj rest k) k) = none
      rw [if_neg h1]
      exact ih

theorem lookup_delObj_ne (s : Store) (k k' : Str) (h : k' ≠ k) :
    lookupObj (delObj s k) k' = lookupObj s k' := by
  induction s with
  | nil => rfl
  | cons kv rest ih =>
    obtain ⟨k0, v⟩ := kv
    by_cases h1 : k0 = k
    · subst h1
      show lookupObj (List.filter _ ((k0, v) :: rest)) k' = _
      rw [List.filter_cons_of_neg (by simp)]
      show lookupObj (delObj rest k0) k' = _
      rw [ih]
      show _ = (if k0 = k' then some v else lookupObj rest k')
      rw [if_neg (fun hh => h hh.symm)]
    · show lookupObj (List.filter _ ((k0, v) :: rest)) k' = _
      rw [List.filter_cons_of_pos (by simp [h1])]
      show (if k0 = k' then some v else lookupObj (delObj rest k) k') =
        (if k0 = k' then some v else lookupObj rest k')
      rw [ih]

theorem mem_putObj (s : Store) (k : Str) (o : Obj) (kv : Str × Obj)
    (h : kv ∈ putObj s k o) : kv = (k, o) ∨ kv ∈ s := by
  induction s with
  | nil => simpa [putObj] using h
  | cons kv0 rest ih =>
    obtain ⟨k0, v⟩ := kv0
    by_cases h1 : k0 = k
    · simp [putObj, h1] at h
      rcases h with h | h
      · exact Or.inl (by simp [h])
      · exact Or.inr (by simp [h])
    · by_cases h2 : lexLt k k0
      · simp [putObj, h1, h2] at h
        rcases h with h | h | h
        · exact Or.inl (by simp [h])
        · exact Or.inr (by simp [h])
        · exact Or.inr (by simp [h])
      · simp [putObj, h1, h2] at h
        rcases h with h | h
        · exact Or.inr (by simp [h])
        · rcases ih h with h' | h'
          · exact Or.inl h'
          · exact Or.inr (by simp [h'])

theorem mem_delObj (s : Store) (k : Str) (kv : Str × Obj)
    (h : kv ∈ delObj s k) : kv ∈ s ∧ kv.1 ≠ k := by
  simp only [delObj] at h
  have := List.of_mem_filter h
  exact ⟨List.mem_of_mem_filter h, by simpa using this⟩

theorem entriesGo_nil (pfx : Str) (d : Bool) (s : Store) (lc : Option Str)
    (h : ∀ kv ∈ s, goHasPre kv.1 pfx = false) : entriesGo pfx d s lc = [] := by
  induction s generalizing lc with
  | nil => simp [entriesGo]
  | cons kv rest ih =>
    obtain ⟨k0, v⟩ := kv
    have h0 : goHasPre k0 pfx = false := h (k0, v) (by simp)
    simp [entriesGo, h0]
    exact ih lc (fun kv hkv => h kv (by simp [hkv]))

theorem entriesGo_ne_nil (pfx : Str) (s : Store) (lc : Option Str) (k : Str) (o : Obj)
    (hmem : lookupObj s k = some o) (hpre : goHasPre k pfx = true) :
    entriesGo pfx false s lc ≠ [] := by
  induction s generalizing lc with
  | nil => simp [lookupObj] at hmem
  | cons kv rest ih =>
    obtain ⟨k0, v⟩ := kv
    by_cases h1 : k0 = k
    · subst h1
      simp [entriesGo, hpre]
    · simp only [lookupObj] at hmem
      rw [if_neg h1] at hmem
      by_cases h2 : goHasPre k0 pfx
      · simp [entriesGo, h2]
      · simp only [entriesGo]
        rw [if_neg h2]
        exact ih lc hmem

theorem goHasPre_append (l r : Str) : goHasPre (l ++ r) l = true := by
  simp [goHasPre, List.isPrefixOf_iff_prefix]

theorem ne_append_cons (l : Str) (x : Char) (xs : Str) : l ++ x :: xs ≠ l := by
  intro h
  have := congrArg List.length h
  simp at this

theorem takeWhile_all_append {p : Char → Bool} (a : Str) (x : Char) (b : Str)
    (ha : ∀ c ∈ a, p c = true) (hx : p x = false) :
    (a ++ x :: b).takeWhile p = a := by
  induction a with
  | nil => simp [List.takeWhile_cons, hx]
  | cons c cs ih =>
    have hc : p c = true := ha c (by simp)
    simp only [List.cons_append, List.takeWhile_cons, hc, if_true]
    rw [ih (fun c' hc' => ha c' (by simp [hc']))]

theorem dropWhile_cons_false {p : Char → Bool} (x : Char) (b : Str) (hx : p x = false) :
    (x :: b).dropWhile p = x :: b := by
  simp [List.dropWhile_cons, hx]

theorem contains_false_of_all_ne (s : Str) (c : Char) (h : ∀ x ∈ s, x ≠ c) :
    s.contains c = false := by
  have hnm : c ∉ s := fun hmem => h c hmem rfl
  simpa using hnm

theorem pathBase_last_seg (l s : Str) (hs : s ≠ []) (hsf : ∀ c ∈ s, c ≠ '/') :
    pathBase (l ++ '/' :: s) = s := by
  match hrev : s.reverse with
  | [] =>
    exfalso
    exact hs (by simpa using congrArg List.reverse hrev)
  | c :: cs =>
    have hcs : c ∈ s := by
      have : c ∈ s.reverse := by rw [hrev]; simp
      simpa using this
    have hcne : (c = '/') = False := by simp [hsf c hcs]
    have hrv : (l ++ '/' :: s).reverse = c :: (cs ++ '/' :: l.reverse) := by
      rw [List.reverse_append, List.reverse_cons, hrev]
      simp
    have htw : ((c :: cs) ++ '/' :: l.reverse).takeWhile (fun ch => ch ≠ '/') = c :: cs := by
      apply takeWhile_all_append
      · intro x hx
        rcases List.mem_cons.mp hx with rfl | hx'
        · simp [hsf _ hcs]
        · have : x ∈ s.reverse := by rw [hrev]; simp [hx']
          simp [hsf x (by simpa using this)]
      · simp
    rw [List.cons_append] at htw
    simp only [pathBase]
    rw [if_neg (by simp)]
    rw [hrv]
    rw [List.dropWhile_cons]
    simp only [hcne, decide_False, Bool.false_eq_true, if_false]
    rw [if_neg (by simp)]
    rw [htw]
    rw [← hrev, List.reverse_reverse]

theorem goHasSuf_slash_false (l s : Str) (hs : s ≠ []) (hsf : ∀ c ∈ s, c ≠ '/') :
    goHasSuf (l ++ '/' :: s) ['/'] = false := by
  match hrev : s.reverse with
  | [] =>
    exfalso
    exact hs (by simpa using congrArg List.reverse hrev)
  | c :: cs =>
    have hcs : c ∈ s := by
      have : c ∈ s.reverse := by rw [hrev]; simp
      simpa using this
    have hrv : (l ++ '/' :: s).reverse = c :: (cs ++ '/' :: l.reverse) := by
      rw [List.reverse_append, List.reverse_cons, hrev]
      simp
    simp only [goHasSuf, List.isSuffixOf, hrv]
    simp [List.isPrefixOf, hsf c hcs]
    simpa using fun hh : '/' = c => (hsf c hcs) hh.symm

theorem statFs_file_hit (pre : Str) (store : Store) (inName : Str) (o : Obj)
    (hroot : getPath pre inName ≠ ['/'])
    (hhead : lookupObj store (getPath pre inName) = some o)
    (hnsuf : goHasSuf (getPath pre inName) ['/'] = false) :
    (statFs pre store inName).1 =
      Except.ok (NewFileInfo (pathBase (getPath pre inName)) false (o.length : Int) 0) := by
  simp [statFs, hroot, hhead, hnsuf]

theorem statFs_miss_notExist (pre : Str) (store : Store) (inName : Str)
    (hroot : getPath pre inName ≠ ['/'])
    (hmiss : lookupObj store (getPath pre inName) = none)
    (hnil : entriesGo (trimPre (pathClean (getPath pre (getPath pre inName))) ['/']) false store none = [])
    (hnonempty : getPath pre (getPath pre inName) ≠ [])
    (hnepre : getPath pre (getPath pre inName) ≠ pre) :
    (statFs pre store inName).1 = Except.error GoErr.notExist := by
  simp only [statFs]
  rw [if_neg hroot, hmiss]
  simp only [statDirFs, listV2, entriesFor, hnil]
  rw [if_pos ⟨by simp, hnonempty, hnepre⟩]

theorem rename_file_spec (pre : Str) (store : Store) (inOld inNew : Str) (o : Obj)
    (hne : getPath pre inOld ≠ getPath pre inNew)
    (hhead : lookupObj store (getPath pre inOld) = some o)
    (hnsuf : goHasSuf (getPath pre inOld) ['/'] = false)
    (holdroot : getPath pre inOld ≠ ['/'])
    (hnewroot : getPath pre inNew ≠ ['/'])
    (hnewsuf : goHasSuf (getPath pre inNew) ['/'] = false)
    (hpre2 : getPath pre (getPath pre inOld) = getPath pre inOld)
    (hpre3 : getPath pre (getPath pre inNew) = getPath pre inNew)
    (hnomatch : ∀ kv ∈ store, kv.1 = getPath pre inOld ∨
        goHasPre kv.1 (trimPre (pathClean (getPath pre inOld)) ['/']) = false)
    (hnewnomatch : goHasPre (getPath pre inNew) (trimPre (pathClean (getPath pre inOld)) ['/']) = false)
    (hnonempty : getPath pre inOld ≠ [])
    (hnepre : getPath pre inOld ≠ pre) :
    renameFuel pre 1 store inOld inNew =
      some (delObj (putObj store (getPath pre inNew) o) (getPath pre inOld), none) ∧
    (statFs pre (delObj (putObj store (getPath pre inNew) o) (getPath pre inOld)) inNew).1 =
      Except.ok (NewFileInfo (pathBase (getPath pre inNew)) false (o.length : Int) 0) ∧
    (statFs pre (delObj (putObj store (getPath pre inNew) o) (getPath pre inOld)) inOld).1 =
      Except.error GoErr.notExist := by
  have hlookNew : lookupObj (delObj (putObj store (getPath pre inNew) o) (getPath pre inOld))
      (getPath pre inNew) = some o := by
    rw [lookup_delObj_ne _ _ _ (Ne.symm hne), lookup_putObj_self]
  have hlookOld : lookupObj (delObj (putObj store (getPath pre inNew) o) (getPath pre inOld))
      (getPath pre inOld) = none := lookup_delObj_self _ _
  refine ⟨?_, ?_, ?_⟩
  · have hstatOld := statFs_file_hit pre store (getPath pre inOld) o
      (by rw [hpre2]; exact holdroot) (by rw [hpre2]; exact hhead) (by rw [hpre2]; exact hnsuf)
    rw [hpre2] at hstatOld
    simp only [renameFuel, renameStep]
    rw [if_neg hne]
    rw [hstatOld]
    simp [NewFileInfo, copyDelete, hhead]
  · have h := statFs_file_hit pre
      (delObj (putObj store (getPath pre inNew) o) (getPath pre inOld)) inNew o
      hnewroot hlookNew hnewsuf
    exact h
  · apply statFs_miss_notExist pre _ inOld holdroot hlookOld ?_
      (by rw [hpre2]; exact hnonempty) (by rw [hpre2]; exact hnepre)
    rw [hpre2]
    apply entriesGo_nil
    intro kv hkv
    obtain ⟨hkv1, hkv2⟩ := mem_delObj _ _ _ hkv
    rcases mem_putObj _ _ _ _ hkv1 with h | h
    · rw [h]
      exact hnewnomatch
    · rcases hnomatch kv h with h' | h'
      · exact absurd h' hkv2
      · exact h'

theorem goHasPre_refl (l : Str) : goHasPre l l = true := by
  simp [goHasPre, List.isPrefixOf_iff_prefix]

theorem goHasSuf_append_slash (l : Str) : goHasSuf (l ++ ['/']) ['/'] = true := by
  simp [goHasSuf, List.isSuffixOf_iff_suffix]

theorem lookupObj_none_of (s : Store) (key : Str) (h : ∀ kv ∈ s, kv.1 ≠ key) :
    lookupObj s key = none := by
  induction s with
  | nil => rfl
  | cons kv rest ih =>
    obtain ⟨k0, v⟩ := kv
    simp only [lookupObj]
    rw [if_neg (h (k0, v) (by simp))]
    exact ih (fun kv hkv => h kv (by simp [hkv]))

theorem key_inj (l : Str) {s1 s2 : Str} (h : l ++ '/' :: s1 = l ++ '/' :: s2) : s1 = s2 := by
  simpa using List.append_cancel_left h

theorem key_ne_root (l s : Str) (hl : l ≠ []) : l ++ '/' :: s ≠ ['/'] := by
  intro h
  have hlen := congrArg List.length h
  simp at hlen
  have : l.length = 0 := by omega
  exact hl (List.length_eq_zero.mp this)

theorem key_ne_of_base_ne (l : Str) {s1 s2 : Str} (h : s1 ≠ s2) :
    l ++ '/' :: s1 ≠ l ++ '/' :: s2 := fun hh => h (key_inj l hh)

theorem entriesGo_all_objs (pfx : Str) (s : Store)
    (h : ∀ kv ∈ s, goHasPre kv.1 pfx = true ∧ (kv.1.drop pfx.length).contains '/' = false) :
    ∀ lc, entriesGo pfx true s lc = s.map (fun kv => Entry.obj kv.1 kv.2) := by
  induction s with
  | nil => intro lc; rfl
  | cons kv rest ih =>
    intro lc
    obtain ⟨k0, v⟩ := kv
    obtain ⟨h1, h2⟩ := h (k0, v) (by simp)
    simp only [entriesGo, h1, if_pos, h2]
    simp only [Bool.and_false, Bool.false_eq_true, if_false, List.map_cons]
    rw [ih (fun kv hkv => h kv (by simp [hkv])) lc]

theorem statFs_miss_dir (pre : Str) (store : Store) (inName : Str)
    (hroot : getPath pre inName ≠ ['/'])
    (hmiss : lookupObj store (getPath pre inName) = none)
    (hne : entriesGo (trimPre (pathClean (getPath pre (getPath pre inName))) ['/']) false store none ≠ []) :
    (statFs pre store inName).1 =
      Except.ok (NewFileInfo (pathBase (getPath pre (getPath pre inName))) true 0 0) := by
  simp only [statFs]
  rw [if_neg hroot, hmiss]
  simp only [statDirFs, listV2, entriesFor]
  rw [if_neg]
  intro hcond
  have h1 := hcond.1
  simp only [List.drop_zero, Option.getD_none] at h1
  rw [List.length_take] at h1
  have : entriesGo (trimPre (pathClean (getPath pre (getPath pre inName))) ['/']) false store none = [] := by
    apply List.eq_nil_of_length_eq_zero
    omega
  exact hne this

theorem filterMap_entryCom_objs (es : List (Str × Obj)) :
    (es.map (fun kv => Entry.obj kv.1 kv.2)).filterMap entryCom = [] := by
  induction es with
  | nil => rfl
  | cons kv rest ih => simp [List.filterMap_cons, entryCom, ih]

theorem filterMap_entryObj_objs (es : List (Str × Obj)) :
    (es.map (fun kv => Entry.obj kv.1 kv.2)).filterMap entryObj = es := by
  induction es with
  | nil => rfl
  | cons kv rest ih => simp [List.filterMap_cons, entryObj, ih]

theorem objFi_children (inOld : Str) (children : List (Str × Obj))
    (hSegs : ∀ so ∈ children, so.1 ≠ [] ∧ ∀ c ∈ so.1, c ≠ '/') :
    (children.map (fun so => (inOld ++ '/' :: so.1, so.2))).filterMap objFi =
      children.map (fun so => NewFileInfo so.1 false (so.2.length : Int) 0) := by
  induction children with
  | nil => rfl
  | cons so rest ih =>
    obtain ⟨hs1, hs2⟩ := hSegs so (by simp)
    have hsuf := goHasSuf_slash_false inOld so.1 hs1 hs2
    have hbase : pathBase ('/' :: (inOld ++ '/' :: so.1)) = so.1 := by
      rw [show '/' :: (inOld ++ '/' :: so.1) = ('/' :: inOld) ++ '/' :: so.1 from by simp]
      exact pathBase_last_seg ('/' :: inOld) so.1 hs1 hs2
    simp only [List.map_cons, List.filterMap_cons, objFi, hsuf]
    simp only [Bool.false_eq_true, if_false, hbase]
    rw [ih (fun so' hso' => hSegs so' (by simp [hso']))]

theorem kids_rename (inOld inNew : Str) (hOldNe : inOld ≠ []) (hDiff : inOld ≠ inNew) :
    ∀ (todo : List (Str × Obj)) (st : Store),
    (∀ so ∈ todo, so.1 ≠ [] ∧ ∀ c ∈ so.1, c ≠ '/') →
    (∀ so ∈ todo, pathJoin2 inOld so.1 = inOld ++ '/' :: so.1 ∧
      pathJoin2 inNew so.1 = inNew ++ '/' :: so.1) →
    (∀ so ∈ todo, lookupObj st (inOld ++ '/' :: so.1) = some so.2) →
    (∀ so ∈ todo, ∀ so' ∈ todo, inNew ++ '/' :: so.1 ≠ inOld ++ '/' :: so'.1) →
    (todo.map (fun so => so.1)).Nodup →
    ∃ stF, kidsFold (renameFuel [] 1) inOld inNew st
        (todo.map (fun so => NewFileInfo so.1 false (so.2.length : Int) 0)) = some (stF, none) ∧
      (∀ k : Str, (∀ so ∈ todo, k ≠ inOld ++ '/' :: so.1 ∧ k ≠ inNew ++ '/' :: so.1) →
        lookupObj stF k = lookupObj st k) ∧
      (∀ so ∈ todo, lookupObj stF (inNew ++ '/' :: so.1) = some so.2 ∧
        lookupObj stF (inOld ++ '/' :: so.1) = none) := by
  intro todo
  induction todo with
  | nil =>
    intro st _ _ _ _ _
    exact ⟨st, rfl, fun k _ => rfl, by simp⟩
  | cons so rest ih =>
    intro st hSegs hJoins hLook hColl hNodup
    obtain ⟨hs1, hs2⟩ := hSegs so (by simp)
    have hj := hJoins so (by simp)
    have hkey_root : inOld ++ '/' :: so.1 ≠ ['/'] := key_ne_root inOld so.1 hOldNe
    have hlook0 : lookupObj st (inOld ++ '/' :: so.1) = some so.2 := hLook so (by simp)
    have hne0 : inOld ++ '/' :: so.1 ≠ inNew ++ '/' :: so.1 := fun h =>
      hDiff (List.append_cancel_right h)
    have hstep : renameFuel [] 1 st (pathJoin2 inOld so.1) (pathJoin2 inNew so.1) =
        some (delObj (putObj st (inNew ++ '/' :: so.1) so.2) (inOld ++ '/' :: so.1), none) := by
      rw [hj.1, hj.2]
      have hstat := statFs_file_hit [] st (inOld ++ '/' :: so.1) so.2
        (by rw [getPath_nil]; exact hkey_root)
        (by rw [getPath_nil]; exact hlook0)
        (by rw [getPath_nil]; exact goHasSuf_slash_false inOld so.1 hs1 hs2)
      rw [getPath_nil] at hstat
      simp only [renameFuel, renameStep, getPath_nil]
      rw [if_neg hne0]
      rw [hstat]
      simp [NewFileInfo, copyDelete, hlook0]
    set st1 := delObj (putObj st (inNew ++ '/' :: so.1) so.2) (inOld ++ '/' :: so.1) with hst1
    have hNodupRest := (List.nodup_cons.mp hNodup).2
    have hHeadNotRest := (List.nodup_cons.mp hNodup).1
    have hlook1 : ∀ so' ∈ rest, lookupObj st1 (inOld ++ '/' :: so'.1) = some so'.2 := by
      intro so' hso'
      have hne1 : inOld ++ '/' :: so'.1 ≠ inOld ++ '/' :: so.1 := by
        apply key_ne_of_base_ne
        intro h
        have hmem : so'.1 ∈ rest.map (fun so => so.1) := List.mem_map_of_mem _ hso'
        rw [h] at hmem
        exact hHeadNotRest hmem
      have hne2 : inOld ++ '/' :: so'.1 ≠ inNew ++ '/' :: so.1 := fun h =>
        hColl so (by simp) so' (by simp [hso']) h.symm
      rw [hst1, lookup_delObj_ne _ _ _ hne1, lookup_putObj_ne _ _ _ _ hne2]
      exact hLook so' (by simp [hso'])
    obtain ⟨stF, hF, hPres, hSet⟩ := ih st1
      (fun so' hso' => hSegs so' (by simp [hso']))
      (fun so' hso' => hJoins so' (by simp [hso']))
      hlook1
      (fun so' hso' so'' hso'' => hColl so' (by simp [hso']) so'' (by simp [hso'']))
      hNodupRest
    refine ⟨stF, ?_, ?_, ?_⟩
    · simp only [List.map_cons, kidsFold, NewFileInfo]
      rw [hstep]
      exact hF
    · intro k hk
      have hk0 := hk so (by simp)
      rw [hPres k (fun so' hso' => hk so' (by simp [hso']))]
      rw [hst1, lookup_delObj_ne _ _ _ hk0.1, lookup_putObj_ne _ _ _ _ hk0.2]
    · intro so' hso'
      rcases List.mem_cons.mp hso' with rfl | hso''
      · have hside1 : ∀ so'' ∈ rest, inNew ++ '/' :: so'.1 ≠ inOld ++ '/' :: so''.1 ∧
            inNew ++ '/' :: so'.1 ≠ inNew ++ '/' :: so''.1 := by
          intro so'' hso''
          refine ⟨hColl so' (by simp) so'' (by simp [hso'']), ?_⟩
          apply key_ne_of_base_ne
          intro h
          have hmem : so''.1 ∈ rest.map (fun so => so.1) := List.mem_map_of_mem _ hso''
          rw [← h] at hmem
          exact hHeadNotRest hmem
        have hside2 : ∀ so'' ∈ rest, inOld ++ '/' :: so'.1 ≠ inOld ++ '/' :: so''.1 ∧
            inOld ++ '/' :: so'.1 ≠ inNew ++ '/' :: so''.1 := by
          intro so'' hso''
          constructor
          · apply key_ne_of_base_ne
            intro h
            have hmem : so''.1 ∈ rest.map (fun so => so.1) := List.mem_map_of_mem _ hso''
            rw [← h] at hmem
            exact hHeadNotRest hmem
          · exact fun h => hColl so'' (by simp [hso'']) so' (by simp) h.symm
        constructor
        · rw [hPres (inNew ++ '/' :: so'.1) hside1]
          rw [hst1, lookup_delObj_ne _ _ _ (Ne.symm hne0), lookup_putObj_self]
        · rw [hPres (inOld ++ '/' :: so'.1) hside2]
          rw [hst1, lookup_delObj_self]
      · exact hSet so' hso''

theorem lookup_children_map (inOld : Str) (children : List (Str × Obj))
    (hNodup : (children.map (fun so => so.1)).Nodup) :
    ∀ so ∈ children,
      lookupObj (children.map (fun so => (inOld ++ '/' :: so.1, so.2))) (inOld ++ '/' :: so.1) =
        some so.2 := by
  induction children with
  | nil => intro so hso; simp at hso
  | cons so0 rest ih =>
    intro so hso
    rcases List.mem_cons.mp hso with rfl | hso'
    · simp [lookupObj]
    · have hne : inOld ++ '/' :: so0.1 ≠ inOld ++ '/' :: so.1 := by
        apply key_ne_of_base_ne
        intro h
        have hmem : so.1 ∈ rest.map (fun so => so.1) := List.mem_map_of_mem _ hso'
        rw [← h] at hmem
        exact (List.nodup_cons.mp hNodup).1 hmem
      simp only [List.map_cons, lookupObj]
      rw [if_neg hne]
      exact ih (List.nodup_cons.mp hNodup).2 so hso'

theorem readdirAll_ok_step (store : Store) (fname : Str) (st : DirState) (fuel : Nat)
    (fis : List FileInfo) (st' : DirState) (l : List FileInfo) (st'' : DirState)
    (hp : readdirPage store fname st 100 = (Except.ok fis, st'))
    (hrec : readdirAllFuel store fname st' fuel = some (Except.ok l, st'')) :
    readdirAllFuel store fname st (fuel + 1) = some (Except.ok (fis ++ l), st'') := by
  simp only [readdirAllFuel, hp, hrec]
  rfl

theorem readdirAll_stop (store : Store) (fname : Str) (st : DirState) (fuel : Nat)
    (h : st.exhausted = true) :
    readdirAllFuel store fname st (fuel + 1) = some (Except.ok [], st) := by
  simp only [readdirAllFuel, readdirPage_exhausted store fname st 100 h]
  rfl

theorem renameFuel_succ (pre : Str) (fuel : Nat) (store : Store) (inOld inNew : Str) :
    renameFuel pre (fuel + 1) store inOld inNew =
      renameStep pre (renameFuel pre fuel) store inOld inNew := rfl

theorem rename_dir_spec (inOld inNew : Str) (mo : Obj) (children : List (Str × Obj))
    (hOldNe : inOld ≠ [])
    (hDiff : inOld ≠ inNew)
    (hTrim : goHasPre inOld ['/'] = false)
    (hNoSuf : goHasSuf inOld ['/'] = false)
    (hClean : pathClean inOld = inOld)
    (hChildNe : children ≠ [])
    (hLen : children.length ≤ 99)
    (hSegs : ∀ so ∈ children, so.1 ≠ [] ∧ ∀ c ∈ so.1, c ≠ '/')
    (hJoins : ∀ so ∈ children, pathJoin2 inOld so.1 = inOld ++ '/' :: so.1 ∧
      pathJoin2 inNew so.1 = inNew ++ '/' :: so.1)
    (hColl : ∀ so ∈ children, ∀ so' ∈ children, inNew ++ '/' :: so.1 ≠ inOld ++ '/' :: so'.1)
    (hCollMark : ∀ so ∈ children, inNew ++ '/' :: so.1 ≠ inOld ++ ['/'])
    (hCollOld : ∀ so ∈ children, inNew ++ '/' :: so.1 ≠ inOld)
    (hNodup : (children.map (fun so => so.1)).Nodup)
    (hMarkNewChild : ∀ so ∈ children, inNew ++ ['/'] ≠ inOld ++ '/' :: so.1) :
    ∃ stF,
      renameFuel [] 2
        ((inOld ++ ['/'], mo) :: children.map (fun so => (inOld ++ '/' :: so.1, so.2)))
        inOld inNew = some (stF, none) ∧
      lookupObj stF (inOld ++ ['/']) = some mo ∧
      lookupObj stF (inNew ++ ['/']) = none ∧
      (∀ so ∈ children, lookupObj stF (inNew ++ '/' :: so.1) = some so.2 ∧
        lookupObj stF (inOld ++ '/' :: so.1) = none) ∧
      (statFs [] stF inOld).1 = Except.ok (NewFileInfo (pathBase inOld) true 0 0) := by
  set store : Store :=
    (inOld ++ ['/'], mo) :: children.map (fun so => (inOld ++ '/' :: so.1, so.2)) with hstore
  have hRootNe : inOld ≠ ['/'] := by
    intro h
    rw [h] at hTrim
    rw [goHasPre_refl] at hTrim
    exact Bool.true_eq_false.mp hTrim
  have hMarkNeChild : ∀ s : Str, s ≠ [] → inOld ++ ['/'] ≠ inOld ++ '/' :: s := by
    intro s hs h
    have := List.append_cancel_left h
    simp at this
    exact hs this
  have hmiss : lookupObj store inOld = none := by
    apply lookupObj_none_of
    intro kv hkv
    rcases List.mem_cons.mp hkv with rfl | hkv'
    · exact ne_append_cons inOld '/' []
    · obtain ⟨so, hso, rfl⟩ := List.mem_map.mp hkv'
      exact ne_append_cons inOld '/' so.1
  have htrim : trimPre inOld ['/'] = inOld := by simp [trimPre, hTrim]
  have hmarkLook : lookupObj store (inOld ++ ['/']) = some mo := by
    simp [lookupObj, hstore]
  have hstatTop : (statFs [] store inOld).1 =
      Except.ok (NewFileInfo (pathBase inOld) true 0 0) := by
    have h := statFs_miss_dir [] store inOld
      (by rw [getPath_nil]; exact hRootNe)
      (by rw [getPath_nil]; exact hmiss)
      ?hne
    · rw [getPath_nil, getPath_nil] at h
      exact h
    · rw [getPath_nil, getPath_nil, hClean, htrim]
      exact entriesGo_ne_nil inOld store none (inOld ++ ['/']) mo hmarkLook
        (by simpa using goHasPre_append inOld ['/'])
  have hrdp : readdirPre inOld = inOld ++ ['/'] := by
    simp [readdirPre, htrim, hOldNe, hNoSuf]
  have hents : entriesFor store (readdirPre inOld) true =
      store.map (fun kv => Entry.obj kv.1 kv.2) := by
    rw [hrdp]
    apply entriesGo_all_objs
    intro kv hkv
    rcases List.mem_cons.mp hkv with rfl | hkv'
    · constructor
      · exact goHasPre_refl _
      · rw [List.drop_length]
        rfl
    · obtain ⟨so, hso, rfl⟩ := List.mem_map.mp hkv'
      have hsplit : inOld ++ '/' :: so.1 = (inOld ++ ['/']) ++ so.1 := by simp
      constructor
      · rw [hsplit]
        exact goHasPre_append _ _
      · rw [hsplit, List.drop_left]
        exact contains_false_of_all_ne so.1 '/' (hSegs so hso).2
  have hentlen : (entriesFor store (readdirPre inOld) true).length = children.length + 1 := by
    rw [hents]
    simp [hstore]
  have hpageval : pageFis store inOld 0 100 =
      children.map (fun so => NewFileInfo so.1 false (so.2.length : Int) 0) := by
    simp only [pageFis]
    rw [hents]
    rw [List.drop_zero, List.take_of_length_le (by simp [hstore]; omega)]
    rw [filterMap_entryCom_objs, filterMap_entryObj_objs]
    rw [hstore]
    rw [List.filterMap_cons]
    rw [show objFi (inOld ++ ['/'], mo) = none from by simp [objFi, goHasSuf_append_slash]]
    rw [objFi_children inOld children hSegs]
    simp
  have hpage := readdirPage_last store inOld none 100 (by rw [hentlen]; simp; omega)
  have hreaddir : readdirAllFuel store inOld initDirState (store.length + 2) =
      some (Except.ok (children.map (fun so => NewFileInfo so.1 false (so.2.length : Int) 0)),
        ⟨none, true⟩) := by
    have hslen : store.length + 2 = (children.length + 2) + 1 := by
      simp [hstore]
    rw [hslen]
    have hinner : readdirAllFuel store inOld ⟨none, true⟩ ((children.length + 1) + 1) =
        some (Except.ok [], ⟨none, true⟩) :=
      readdirAll_stop store inOld ⟨none, true⟩ (children.length + 1) rfl
    have := readdirAll_ok_step store inOld initDirState (children.length + 2)
      (pageFis store inOld 0 100) ⟨none, true⟩ [] ⟨none, true⟩
      (by simpa using hpage) hinner
    rw [this]
    rw [hpageval]
    simp
  have hLook0 : ∀ so ∈ children, lookupObj store (inOld ++ '/' :: so.1) = some so.2 := by
    intro so hso
    simp only [hstore, lookupObj]
    rw [if_neg (hMarkNeChild so.1 (hSegs so hso).1)]
    exact lookup_children_map inOld children hNodup so hso
  obtain ⟨stF, hF, hPres, hSet⟩ := kids_rename inOld inNew hOldNe hDiff children store
    hSegs hJoins hLook0 hColl hNodup
  have hpos : 0 < children.length := List.length_pos.mpr hChildNe
  refine ⟨stF, ?_, ?_, ?_, hSet, ?_⟩
  · show renameStep [] (renameFuel [] 1) store inOld inNew = some (stF, none)
    simp only [renameStep, getPath_nil]
    rw [if_neg hDiff]
    simp only [hstatTop, hreaddir]
    simp only [NewFileInfo] at hF
    simp only [NewFileInfo, hF, List.length_map, hpos, if_true]
  · rw [hPres (inOld ++ ['/']) ?side]
    · exact hmarkLook
    · intro so hso
      exact ⟨hMarkNeChild so.1 (hSegs so hso).1, fun h => hCollMark so hso h.symm⟩
  · rw [hPres (inNew ++ ['/']) ?sideB]
    · apply lookupObj_none_of
      intro kv hkv
      rcases List.mem_cons.mp hkv with rfl | hkv'
      · intro h
        exact hDiff (List.append_cancel_right h)
      · obtain ⟨so, hso, rfl⟩ := List.mem_map.mp hkv'
        exact fun h => hMarkNewChild so hso h.symm
    · intro so hso
      constructor
      · exact hMarkNewChild so hso
      · intro h
        have := List.append_cancel_left h
        simp at this
        exact (hSegs so hso).1 this
  · have h := statFs_miss_dir [] stF inOld
      (by rw [getPath_nil]; exact hRootNe)
      ?missF
      ?hneF
    · rw [getPath_nil, getPath_nil] at h
      exact h
    · rw [getPath_nil]
      rw [hPres inOld ?sideC]
      · exact hmiss
      · intro so hso
        refine ⟨Ne.symm (ne_append_cons inOld '/' so.1), fun h => hCollOld so hso h.symm⟩
    · rw [getPath_nil, getPath_nil, hClean, htrim]
      have hmF : lookupObj stF (inOld ++ ['/']) = some mo := by
        rw [hPres (inOld ++ ['/']) ?sideD]
        · exact hmarkLook
        · intro so hso
          exact ⟨hMarkNeChild so.1 (hSegs so hso).1, fun h => hCollMark so hso h.symm⟩
      exact entriesGo_ne_nil inOld stF none (inOld ++ ['/']) mo hmF
        (by simpa using goHasPre_append inOld ['/'])

/-- Claim C2 counterexample: on the store holding marker "d/" and file "d/a",
Rename("d","e") returns successfully having renamed the child, but the
directory marker "d/" is neither copied to "e/" nor deleted, and Stat("d")
afterwards still reports a directory rather than NotExist. -/
theorem rename_marker_left_behind :
    renameFuel [] 9 [(['d', '/'], []), (['d', '/', 'a'], [1])] ['d'] ['e'] =
      some ([(['d', '/'], []), (['e', '/', 'a'], [1])], none) ∧
    (statFs [] [(['d', '/'], []), (['e', '/', 'a'], [1])] ['d']).1 =
      Except.ok (NewFileInfo ['d'] true 0 0) ∧
    lookupObj [(['d', '/'], []), (['e', '/', 'a'], [1])] ['e', '/'] = none ∧
    lookupObj [(['d', '/'], []), (['e', '/', 'a'], [1])] ['d', '/'] = some [] := by decide

/-- Claim C2 (amended): after a successful Rename of a plain, HEAD-visible
file whose key no other key extends, Stat of the old path reports NotExist
and Stat of the new path reports the pre-rename content length; when the
source is a directory holding a marker object and at least one plain-file
child (with well-formed, pairwise distinct, non-colliding names, at most 99
children), Rename succeeds, every child is renamed by prefix substitution,
but the marker object is left in place untouched, no marker is created at
the new name, and Stat of the old path still reports a directory instead of
NotExist. -/
theorem rename_semantics :
    (∀ (pre : Str) (store : Store) (inOld inNew : Str) (o : Obj),
      getPath pre inOld ≠ getPath pre inNew →
      lookupObj store (getPath pre inOld) = some o →
      goHasSuf (getPath pre inOld) ['/'] = false →
      getPath pre inOld ≠ ['/'] →
      getPath pre inNew ≠ ['/'] →
      goHasSuf (getPath pre inNew) ['/'] = false →
      getPath pre (getPath pre inOld) = getPath pre inOld →
      getPath pre (getPath pre inNew) = getPath pre inNew →
      (∀ kv ∈ store, kv.1 = getPath pre inOld ∨
        goHasPre kv.1 (trimPre (pathClean (getPath pre inOld)) ['/']) = false) →
      goHasPre (getPath pre inNew) (trimPre (pathClean (getPath pre inOld)) ['/']) = false →
      getPath pre inOld ≠ [] →
      getPath pre inOld ≠ pre →
      renameFuel pre 1 store inOld inNew =
        some (delObj (putObj store (getPath pre inNew) o) (getPath pre inOld), none) ∧
      (statFs pre (delObj (putObj store (getPath pre inNew) o) (getPath pre inOld)) inNew).1 =
        Except.ok (NewFileInfo (pathBase (getPath pre inNew)) false (o.length : Int) 0) ∧
      (statFs pre (delObj (putObj store (getPath pre inNew) o) (getPath pre inOld)) inOld).1 =
        Except.error GoErr.notExist) ∧
    (∀ (inOld inNew : Str) (mo : Obj) (children : List (Str × Obj)),
      inOld ≠ [] →
      inOld ≠ inNew →
      goHasPre inOld ['/'] = false →
      goHasSuf inOld ['/'] = false →
      pathClean inOld = inOld →
      children ≠ [] →
      children.length ≤ 99 →
      (∀ so ∈ children, so.1 ≠ [] ∧ ∀ c ∈ so.1, c ≠ '/') →
      (∀ so ∈ children, pathJoin2 inOld so.1 = inOld ++ '/' :: so.1 ∧
        pathJoin2 inNew so.1 = inNew ++ '/' :: so.1) →
      (∀ so ∈ children, ∀ so' ∈ children, inNew ++ '/' :: so.1 ≠ inOld ++ '/' :: so'.1) →
      (∀ so ∈ children, inNew ++ '/' :: so.1 ≠ inOld ++ ['/']) →
      (∀ so ∈ children, inNew ++ '/' :: so.1 ≠ inOld) →
      (children.map (fun so => so.1)).Nodup →
      (∀ so ∈ children, inNew ++ ['/'] ≠ inOld ++ '/' :: so.1) →
      ∃ stF,
        renameFuel [] 2
          ((inOld ++ ['/'], mo) :: children.map (fun so => (inOld ++ '/' :: so.1, so.2)))
          inOld inNew = some (stF, none) ∧
        lookupObj stF (inOld ++ ['/']) = some mo ∧
        lookupObj stF (inNew ++ ['/']) = none ∧
        (∀ so ∈ children, lookupObj stF (inNew ++ '/' :: so.1) = some so.2 ∧
          lookupObj stF (inOld ++ '/' :: so.1) = none) ∧
        (statFs [] stF inOld).1 = Except.ok (NewFileInfo (pathBase inOld) true 0 0)) :=
  ⟨fun pre store inOld inNew o h1 h2 h3 h4 h5 h6 h7 h8 h9 h10 h11 h12 =>
    rename_file_spec pre store inOld inNew o h1 h2 h3 h4 h5 h6 h7 h8 h9 h10 h11 h12,
   fun inOld inNew mo children h1 h2 h3 h4 h5 h6 h7 h8 h9 h10 h11 h12 h13 h14 =>
    rename_dir_spec inOld inNew mo children h1 h2 h3 h4 h5 h6 h7 h8 h9 h10 h11 h12 h13 h14⟩

/-- Witness for rename_semantics: the file "f" renamed to "g" in a one-file
bucket, and the directory "d" with marker and children "a", "b" renamed
to "e". -/
theorem rename_semantics_witness :
    (renameFuel [] 1 [(['f'], [7])] ['f'] ['g'] =
      some (delObj (putObj [(['f'], [7])] ['g'] [7]) ['f'], none) ∧
    (statFs [] (delObj (putObj [(['f'], [7])] ['g'] [7]) ['f']) ['g']).1 =
      Except.ok (NewFileInfo (pathBase ['g']) false (([7] : Obj).length : Int) 0) ∧
    (statFs [] (delObj (putObj [(['f'], [7])] ['g'] [7]) ['f']) ['f']).1 =
      Except.error GoErr.notExist) ∧
    (∃ stF,
      renameFuel [] 2
        ((['d'] ++ ['/'], ([] : Obj)) ::
          [(['a'], ([1] : Obj)), (['b'], ([2, 3] : Obj))].map
            (fun so => (['d'] ++ '/' :: so.1, so.2)))
        ['d'] ['e'] = some (stF, none) ∧
      lookupObj stF (['d'] ++ ['/']) = some [] ∧
      lookupObj stF (['e'] ++ ['/']) = none ∧
      (∀ so ∈ [(['a'], ([1] : Obj)), (['b'], ([2, 3] : Obj))],
        lookupObj stF (['e'] ++ '/' :: so.1) = some so.2 ∧
        lookupObj stF (['d'] ++ '/' :: so.1) = none) ∧
      (statFs [] stF ['d']).1 = Except.ok (NewFileInfo (pathBase ['d']) true 0 0)) :=
  ⟨rename_semantics.1 [] [(['f'], [7])] ['f'] ['g'] [7]
      (by decide) (by decide) (by decide) (by decide) (by decide) (by decide)
      (by decide) (by decide) (by decide) (by decide) (by decide) (by decide),
   rename_semantics.2 ['d'] ['e'] [] [(['a'], [1]), (['b'], [2, 3])]
      (by decide) (by decide) (by decide) (by decide) (by decide) (by decide)
      (by decide) (by decide) (by decide) (by decide) (by decide) (by decide)
      (by decide) (by decide)⟩
